import Mathlib

/-!
Verification of the streaming match engine of `sandd` (package
`codesearchpatch`, file `match.go`, a patched copy of google/codesearch's
`regexp/match.go`).

Bytes are modelled as natural numbers (their byte value: `10` is `'\n'`,
`32` is `' '`, `9` is `'\t'`, `13` is `'\r'`); buffers and streams as
`List Nat`.  Go's `bytes` helpers (`IndexByte`, `LastIndex`, `Split`,
`SplitAfter`) are translated as recursive functions on lists; Go slices
`b[i:j]` become `(b.take j).drop i`.
-/

namespace Sandd

/-- `countNL b` — the number of `'\n'` bytes in `b`.  `match.go` computes it
by repeated `bytes.IndexByte` (`countNL`, lines 58-69); the result is the
number of occurrences of byte 10. -/
def countNL (b : List Nat) : Nat := b.count 10

/-- `bytes.IndexByte(b, '\n')` — index of the first `'\n'` in `b`,
`none` for Go's `-1`. -/
def idxNL : List Nat → Option Nat
  | [] => none
  | c :: rest => if c = 10 then some 0 else (idxNL rest).map (· + 1)

/-- `bytes.LastIndex(b, nl)` — index of the last `'\n'` in `b`,
`none` for Go's `-1`. -/
def lastNLIdx : List Nat → Option Nat
  | [] => none
  | c :: rest =>
    match lastNLIdx rest with
    | some j => some (j + 1)
    | none => if c = 10 then some 0 else none

/-- The loop of `lineSuffixLen` (match.go lines 193-199): starting from
`e = len(buf)`, `n` times move `e` to the index of the last `'\n'` strictly
before `e`, stopping early when there is none. -/
def lslEnd (buf : List Nat) : Nat → Nat → Nat
  | 0, e => e
  | n + 1, e =>
    match lastNLIdx (buf.take e) with
    | none => e
    | some j => lslEnd buf n j

/-- `lineSuffixLen(buf, n)` (match.go lines 191-204): the length of the
trailing region of `buf` made of the final line fragment plus up to `n`
complete lines. -/
def lineSuffixLen (buf : List Nat) (n : Nat) : Nat :=
  match lastNLIdx (buf.take (lslEnd buf n buf.length)) with
  | some j => buf.length - (j + 1)
  | none => buf.length

/-- The loop of `linePrefixLen` (match.go lines 206-216): advance `start`
past `lines` newlines; when a newline is missing return `len(buf)`. -/
def lplStart (buf : List Nat) : Nat → Nat → Nat
  | 0, start => start
  | n + 1, start =>
    match idxNL (buf.drop start) with
    | none => buf.length
    | some j => lplStart buf n (start + j + 1)

/-- `linePrefixLen(buf, lines)` (match.go lines 206-216): the length of the
leading region of `buf` holding `lines` complete lines (or all of `buf`
when it has fewer newlines). -/
def linePrefixLen (buf : List Nat) (lines : Nat) : Nat := lplStart buf lines 0

/-- `bytes.Split(b, nl)`: pieces of `b` between `'\n'` separators (the
separators are dropped).  Always at least one piece. -/
def splitNl : List Nat → List (List Nat)
  | [] => [[]]
  | c :: rest =>
    if c = 10 then [] :: splitNl rest
    else
      match splitNl rest with
      | s :: ss => (c :: s) :: ss
      | [] => [[c]]

/-- `bytes.SplitAfter(b, nl)`: pieces of `b` after each `'\n'` (each piece
keeps its trailing `'\n'`; the final piece has none).  Always at least one
piece. -/
def splitAfterNl : List Nat → List (List Nat)
  | [] => [[]]
  | c :: rest =>
    if c = 10 then [10] :: splitAfterNl rest
    else
      match splitAfterNl rest with
      | s :: ss => (c :: s) :: ss
      | [] => [[c]]

/-- A byte chomped from line ends: space, tab, carriage return or newline
(match.go line 286). -/
def isChompByte (c : Nat) : Bool := c == 32 || c == 9 || c == 13 || c == 10

/-- `chomp(s)` (match.go lines 284-290): `s` without its trailing run of
spaces, tabs, carriage returns and newlines. -/
def chomp (s : List Nat) : List Nat := (s.reverse.dropWhile isChompByte).reverse

/-- The leading run of spaces and tabs of `line` (the seeding loop of
`updatePrefix`, match.go lines 260-263). -/
def leadingWS : List Nat → Nat
  | [] => 0
  | c :: rest => if c = 32 ∨ c = 9 then leadingWS rest + 1 else 0

/-- The comparison loop of `updatePrefix` (match.go lines 267-269): the
length of the longest common initial run of `line` and `p`. -/
def commonLen : List Nat → List Nat → Nat
  | a :: as, b :: bs => if a = b then commonLen as bs + 1 else 0
  | _, _ => 0

/-- `updatePrefix(prefix, line)` (match.go lines 258-275).  A `nil` Go slice
is modelled as `none`: the first call seeds the prefix with the leading
whitespace run of `line`; later calls compare byte by byte and return the
old prefix unchanged when `line` runs out first, else cut it at the point
of divergence. -/
def updatePrefix (pfx : Option (List Nat)) (line : List Nat) : List Nat :=
  match pfx with
  | none => line.take (leadingWS line)
  | some p =>
    let i := commonLen line p
    if line.length ≤ i then p else p.take i

/-- `cutPrefix(line, prefix)` (match.go lines 277-282): drop the first
`len(prefix)` bytes of `line`; when the prefix is longer than the line the
result is Go's `nil`, modelled as `[]`. -/
def cutPrefix (line pfx : List Nat) : List Nat :=
  if pfx.length > line.length then [] else line.drop pfx.length

/-- Drop the last piece of a split when it is empty (the
`if len(x[len(x)-1]) == 0 { x = x[:len(x)-1] }` steps of `LineContext`,
match.go lines 225-227 and 232-234). -/
def dropTrailingEmpty (ls : List (List Nat)) : List (List Nat) :=
  if ls.getLast? = some [] then ls.dropLast else ls

/-- `LineContext(numBefore, numAfter, buf, lineStart, lineEnd)` (match.go
lines 218-256): the chomped match line together with up to `numBefore`
preceding and `numAfter` following chomped lines, all with the shared
leading-whitespace prefix cut off. -/
def LineContext (numBefore numAfter : Nat) (buf : List Nat)
    (lineStart lineEnd : Nat) :
    List (List Nat) × List Nat × List (List Nat) :=
  let beforeChunk :=
    (buf.take lineStart).drop (lineStart - lineSuffixLen (buf.take lineStart) numBefore)
  let afterChunk :=
    ((buf.drop lineEnd).take (linePrefixLen (buf.drop lineEnd) numAfter))
  let line := chomp ((buf.take lineEnd).drop lineStart)
  let before := (dropTrailingEmpty (splitAfterNl beforeChunk)).map chomp
  let after := (dropTrailingEmpty (splitNl afterChunk)).map chomp
  let p0 := updatePrefix none line
  let p1 := before.foldl (fun p l => updatePrefix (some p) l) p0
  let p2 := after.foldl (fun p l => updatePrefix (some p) l) p1
  (before.map (fun l => cutPrefix l p2), cutPrefix line p2,
    after.map (fun l => cutPrefix l p2))

/-! ## The streaming scanner `Grep.Reader` (match.go lines 24-189)

The regexp engine is external (spec §6): a matcher takes a haystack and the
begin-of-text / end-of-text flags and returns the end position of the line
containing the earliest match — the index of that line's `'\n'`, or the
haystack length for an unterminated final line — and `none` for Go's `-1`.
-/

/-- The external pattern matcher interface consumed by `Grep.Reader`
(`g.Regexp.Match(buf[chunkStart:end], beginText, endText)`). -/
abbrev Matcher := List Nat → Bool → Bool → Option Nat

/-- The configuration fields of `Grep` read by `Reader` (match.go lines
24-47), except the limit, which is passed separately. -/
structure GrepCfg where
  preContext : Nat   -- g.PreContext
  postContext : Nat  -- g.PostContext
  flagN : Bool       -- g.N
  flagHTML : Bool    -- g.HTML
  flagL : Bool       -- g.L
  flagC : Bool       -- g.C
deriving DecidableEq

/-- `needLineno = g.N || g.HTML` (match.go line 77). -/
def needLineno (cfg : GrepCfg) : Bool := cfg.flagN || cfg.flagHTML

/-- The mutable `Grep` fields written by `Reader` and surviving it:
`g.Match`, `g.Matches`, `g.Limited` (match.go lines 36-39). -/
structure GrepState where
  found : Bool    -- g.Match
  nMatches : Nat  -- g.Matches
  limited : Bool  -- g.Limited
deriving DecidableEq

/-- One reported match.  The first four fields are what the `OnMatch`
callback receives (besides the file name): the current buffer, the line
number and the absolute offsets of the matched line in the buffer.  The
remaining fields are ghost instrumentation used only to state cross-chunk
properties: `base` is the stream offset of `buf[0]`, `csAt` the value of
`chunkStart` when the match was found, `m1` the matcher's reported
line-end position, `endAt` the scan end of this pass, `final` this pass's
end-of-text flag, and `readsAt`/`callsAt`/`maxBufAt` the number of
`ReadFull` calls, matcher calls and the maximal buffer length up to (and
including) this report. -/
structure Ev where
  buf : List Nat
  lineno : Nat
  lineStart : Nat
  lineEnd : Nat
  base : Nat
  csAt : Nat
  m1 : Nat
  endAt : Nat
  final : Bool
  readsAt : Nat
  callsAt : Nat
  maxBufAt : Nat
deriving DecidableEq

/-- Result of the inner matching loop over one chunk: the matches reported
in it, the updated `Grep` state, `count`, matcher-call counter, whether
`Reader` returned from inside the loop (`return` on the limit or on `g.L`),
and the loop variables `chunkStart`, `lineno`, `beginText` on normal
exit. -/
structure InnerOut where
  evs : List Ev
  st : GrepState
  count : Nat
  calls : Nat
  aborted : Bool
  cs : Nat
  lineno : Nat
  bt : Bool
deriving DecidableEq

/-- The inner loop `for chunkStart < end { ... }` of `Reader` (match.go
lines 103-162).  `fuel` only bounds the iteration count; called with
`fuel = endPos + 1` it never runs out, because `chunkStart` strictly
increases.  Every reported match appends an `Ev` (the switch at lines
136-157 only chooses the rendering; in `g.C` mode it also counts).  The
two `return` statements (limit reached, lines 110-113, and names-only,
lines 115-122) exit with `aborted = true`. -/
def innerLoop (cfg : GrepCfg) (limit : Nat) (m : Matcher) (buf : List Nat)
    (endPos : Nat) (endText : Bool) (base readsC maxB : Nat) :
    Nat → Nat → Nat → Bool → Nat → GrepState → Nat → InnerOut
  | 0, cs, lineno, bt, count, st, calls =>
    ⟨[], st, count, calls, false, cs, lineno, bt⟩
  | fuel + 1, cs, lineno, bt, count, st, calls =>
    if cs < endPos then
      let calls1 := calls + 1
      match m ((buf.take endPos).drop cs) bt endText with
      | none => ⟨[], st, count, calls1, false, cs, lineno, false⟩
      | some off =>
        let m1 := cs + off
        if 0 < limit ∧ limit ≤ st.nMatches then
          ⟨[], ⟨true, st.nMatches, true⟩, count, calls1, true, cs, lineno, false⟩
        else
          let st2 : GrepState := ⟨true, st.nMatches + 1, st.limited⟩
          if cfg.flagL then
            ⟨[], st2, count, calls1, true, cs, lineno, false⟩
          else
            let lineStart := (match lastNLIdx ((buf.take m1).drop cs) with
              | none => 0
              | some j => j + 1) + cs
            let lineEnd := min (m1 + 1) endPos
            let lineno1 := if needLineno cfg then
                lineno + countNL ((buf.take lineStart).drop cs)
              else lineno
            let ev : Ev :=
              ⟨buf, lineno1, lineStart, lineEnd, base, cs, m1, endPos, endText,
                readsC, calls1, maxB⟩
            let count1 := if cfg.flagC then count + 1 else count
            let lineno2 := if needLineno cfg then lineno1 + 1 else lineno1
            let r := innerLoop cfg limit m buf endPos endText base readsC maxB
              fuel lineEnd lineno2 false count1 st2 calls1
            ⟨ev :: r.evs, r.st, r.count, r.calls, r.aborted, r.cs, r.lineno, r.bt⟩
    else
      ⟨[], st, count, calls, false, cs, lineno, bt⟩

/-- The scan end of one pass (match.go lines 91-99): with a clean read
(`err == nil`), stop before the trailing fragment and `PostContext` whole
lines — unless that region is the whole buffer; on the final pass, the
whole buffer. -/
def scanEnd (buf : List Nat) (post : Nat) (errNil : Bool) : Nat :=
  if errNil then
    let d := lineSuffixLen buf (post + 1)
    if d < buf.length then buf.length - d else buf.length
  else buf.length

/-- The slide amount (match.go lines 166-171): the trailing pre-context
lines of the processed region are preserved, or nothing when they would be
the whole region (`if d == end { d = 0 }`). -/
def slideAmt (buf : List Nat) (endPos pre : Nat) : Nat :=
  let d := lineSuffixLen (buf.take endPos) pre
  if d = endPos then 0 else d

/-- Result of one `Reader` call: the reported matches in order, the final
`Grep` state, the `g.C` counter, and ghost counters — `ReadFull` calls,
matcher calls, maximal buffer length — plus whether the Go code would have
panicked (see `outerLoop`). -/
structure GResult where
  evs : List Ev
  st : GrepState
  count : Nat
  reads : Nat
  calls : Nat
  maxBuf : Nat
  panicked : Bool
deriving DecidableEq

/-- The outer read loop of `Reader` (match.go lines 88-181), one recursive
call per chunk.  The byte source is `src`; `rf req rem` models how many
bytes `io.ReadFull` delivers for a request of `req` when `rem` bytes
remain (`err == nil` exactly when `n = req`).  `fuel` bounds the chunk
count; with `fuel = src.length + 1` and an `rf` that delivers at least one
byte whenever `req > 0` and `rem > 0` and at most `min req rem`, it never
runs out.  When `chunkStart > end` after the inner loop and line numbers
are needed, the Go code evaluates `buf[chunkStart:end]` and panics; the
model stops with `panicked = true`. -/
def outerLoop (cfg : GrepCfg) (limit : Nat) (m : Matcher)
    (rf : Nat → Nat → Nat) (cap : Nat) :
    Nat → List Nat → List Nat → Nat → Nat → Nat → Nat → Nat → Nat → Nat →
      Bool → GrepState → GResult
  | 0, _src, _buf, _cs, _lineno, count, _base, reads, calls, maxB, _bt, st =>
    ⟨[], st, count, reads, calls, maxB, false⟩
  | fuel + 1, src, buf, cs, lineno, count, base, reads, calls, maxB, bt, st =>
    let req := cap - buf.length
    let n := rf req src.length
    let buf1 := buf ++ src.take n
    let src1 := src.drop n
    let reads1 := reads + 1
    let maxB1 := max maxB buf1.length
    let errNil := n == req
    let endPos := scanEnd buf1 cfg.postContext errNil
    let r := innerLoop cfg limit m buf1 endPos (!errNil) base reads1 maxB1
      (endPos + 1) cs lineno bt count st calls
    if r.aborted then ⟨r.evs, r.st, r.count, reads1, r.calls, maxB1, false⟩
    else if needLineno cfg && errNil && decide (endPos < r.cs) then
      ⟨r.evs, r.st, r.count, reads1, r.calls, maxB1, true⟩
    else
      let lineno1 := if needLineno cfg && errNil then
          r.lineno + countNL ((buf1.take endPos).drop r.cs)
        else r.lineno
      let d := slideAmt buf1 endPos cfg.preContext
      let buf2 := buf1.drop (endPos - d)
      let base2 := base + (endPos - d)
      if errNil && !(n == 0) then
        let rest := outerLoop cfg limit m rf cap fuel src1 buf2 d lineno1
          r.count base2 reads1 r.calls maxB1 r.bt r.st
        ⟨r.evs ++ rest.evs, rest.st, rest.count, rest.reads, rest.calls,
          rest.maxBuf, rest.panicked⟩
      else
        ⟨r.evs, r.st, r.count, reads1, r.calls, maxB1, false⟩

/-- `io.ReadFull` against a source that hands out at most `grain` bytes per
`Read` call: total bytes delivered for a request of `req` when `rem`
remain in the stream.  The fuel equals `req`: each round delivers at least
one byte or stops. -/
def readFullGo (grain : Nat) : Nat → Nat → Nat → Nat
  | 0, _, _ => 0
  | fuel + 1, req, rem =>
    let d := min grain (min req rem)
    if d = 0 then 0 else d + readFullGo grain fuel (req - d) (rem - d)

/-- Bytes delivered by `io.ReadFull` for request `req`, stream remainder
`rem`, reader granularity `grain` (`grain = 1` is a one-byte-at-a-time
reader; `grain ≥ rem` a reader that returns everything in one `Read`). -/
def readFullG (grain req rem : Nat) : Nat := readFullGo grain req req rem

/-- `make([]byte, 1<<20)` (match.go line 73): the fixed buffer capacity. -/
def bufCap : Nat := 1048576

/-- A `Grep` value: configuration plus the state surviving across `Reader`
calls. -/
structure Grep where
  cfg : GrepCfg
  limit : Nat     -- g.Limit
  st : GrepState
deriving DecidableEq

/-- `(*Grep).Reader(r, name)` (match.go lines 71-189) on a source holding
`content`, delivered through a reader of granularity `grain`.  Returns the
updated `Grep` and the scan's observables. -/
def Grep.Reader (g : Grep) (m : Matcher) (grain : Nat) (content : List Nat) :
    Grep × GResult :=
  let r := outerLoop g.cfg g.limit m (readFullG grain) bufCap
    (content.length + 1) content [] 0 1 0 0 0 0 0 true g.st
  ({ g with st := r.st }, r)

/-- The zero value of the `Grep` counters: a freshly constructed `Grep`. -/
def freshGrepState : GrepState := ⟨false, 0, false⟩

/-! ### A concrete line matcher, used by witnesses and counterexamples

`lineMatcher b` behaves like the external codesearch matcher for the
pattern "a line containing byte `b`": it returns the index of the `'\n'`
ending the first such line, the haystack length when the unterminated
final fragment contains `b` and the scan is at end of text, and `none`
otherwise. -/

/-- Scan for the first line containing `b`; `seen` records whether the
current line contains `b` so far.  Returns the offset of the line's
terminating `'\n'` (or of the haystack end, when at end of text). -/
def lineScan (b : Nat) (et : Bool) : List Nat → Bool → Option Nat
  | [], seen => if et && seen then some 0 else none
  | c :: rest, seen =>
    if c = 10 then
      if seen then some 0 else (lineScan b et rest false).map (· + 1)
    else (lineScan b et rest (seen || (c == b))).map (· + 1)

/-- The matcher for "line contains byte `b`". -/
def lineMatcher (b : Nat) : Matcher := fun hay _bt et => lineScan b et hay false

/-! ## Supporting lemmas -/

theorem countNL_append (a b : List Nat) : countNL (a ++ b) = countNL a + countNL b := by
  simp [countNL, List.count_append]

theorem countNL_cons (c : Nat) (l : List Nat) :
    countNL (c :: l) = (if c = 10 then 1 else 0) + countNL l := by
  simp [countNL, List.count_cons, beq_iff_eq]
  by_cases h : c = 10 <;> simp [h] <;> omega

theorem lastNLIdx_eq_none (l : List Nat) : lastNLIdx l = none ↔ countNL l = 0 := by
  induction l with
  | nil => simp [lastNLIdx, countNL]
  | cons c rest ih =>
    rw [countNL_cons]
    simp only [lastNLIdx]
    cases h : lastNLIdx rest with
    | some j =>
      have : countNL rest ≠ 0 := fun hc => by simp [ih.mpr hc] at h
      simp only [reduceCtorEq, false_iff]
      omega
    | none =>
      have hr := ih.mp h
      by_cases hc : c = 10 <;> simp [hc, hr]

theorem lastNLIdx_spec (l : List Nat) (j : Nat) (h : lastNLIdx l = some j) :
    j < l.length ∧ l[j]? = some 10 ∧ countNL (l.drop (j + 1)) = 0 := by
  induction l generalizing j with
  | nil => simp [lastNLIdx] at h
  | cons c rest ih =>
    simp only [lastNLIdx] at h
    cases h' : lastNLIdx rest with
    | some j' =>
      rw [h'] at h
      injection h with h
      subst h
      obtain ⟨h1, h2, h3⟩ := ih j' h'
      refine ⟨by simpa using h1, by simpa using h2, by simpa using h3⟩
    | none =>
      rw [h'] at h
      by_cases hc : c = 10
      · simp only [hc, if_pos rfl] at h
        injection h with h
        subst h
        exact ⟨by simp, by simp [hc], by simpa using (lastNLIdx_eq_none rest).mp h'⟩
      · simp [hc] at h

theorem lslEnd_le (buf : List Nat) (n e : Nat) : lslEnd buf n e ≤ e := by
  induction n generalizing e with
  | zero => simp [lslEnd]
  | succ n ih =>
    simp only [lslEnd]
    cases h : lastNLIdx (buf.take e) with
    | none => exact le_refl e
    | some j =>
      have := (lastNLIdx_spec _ _ h).1
      have hj : j < e := lt_of_lt_of_le this (by simp [List.length_take])
      exact le_trans (ih j) (le_of_lt hj)

theorem countNL_drop_lslEnd (b : List Nat) (n e : Nat) :
    countNL (b.drop (lslEnd b n e)) ≤ n + countNL (b.drop e) := by
  induction n generalizing e with
  | zero => simp [lslEnd]
  | succ n ih =>
    cases h : lastNLIdx (b.take e) with
    | none =>
      simp only [lslEnd, h]
      omega
    | some j =>
      simp only [lslEnd, h]
      obtain ⟨h1, h2, h3⟩ := lastNLIdx_spec _ _ h
      have hj : j < min e b.length := by simpa [List.length_take] using h1
      have hje : j ≤ (b.take e).length := by simp [List.length_take]; omega
      have hsplit : b.drop j = (b.take e).drop j ++ b.drop e := by
        calc b.drop j = ((b.take e) ++ b.drop e).drop j := by rw [List.take_append_drop]
        _ = (b.take e).drop j ++ (b.drop e).drop (j - (b.take e).length) := by
              rw [List.drop_append_eq_append_drop]
        _ = (b.take e).drop j ++ b.drop e := by
              rw [Nat.sub_eq_zero_of_le hje, List.drop_zero]
      have hlt : j < (b.take e).length := by simp [List.length_take]; omega
      have hcons : (b.take e).drop j = 10 :: (b.take e).drop (j + 1) := by
        rw [List.drop_eq_getElem_cons hlt]
        congr 1
        have h2' : (b.take e)[j]? = some 10 := h2
        rw [List.getElem?_eq_getElem hlt] at h2'
        exact Option.some_injective _ h2'
      have hcount : countNL (b.drop j) = 1 + countNL (b.drop e) := by
        rw [hsplit, countNL_append, hcons, countNL_cons, h3]
        simp
      have := ih j
      omega

theorem lineSuffixLen_le (b : List Nat) (n : Nat) : lineSuffixLen b n ≤ b.length := by
  cases h : lastNLIdx (b.take (lslEnd b n b.length)) <;> simp [lineSuffixLen, h]

theorem countNL_suffix_region (b : List Nat) (n : Nat) :
    countNL (b.drop (b.length - lineSuffixLen b n)) ≤ n := by
  have hlsl : countNL (b.drop (lslEnd b n b.length)) ≤ n := by
    have := countNL_drop_lslEnd b n b.length
    simpa [countNL] using this
  cases h : lastNLIdx (b.take (lslEnd b n b.length)) with
  | none =>
    simp only [lineSuffixLen, h, Nat.sub_self, List.drop_zero]
    have h0 : countNL (b.take (lslEnd b n b.length)) = 0 := (lastNLIdx_eq_none _).mp h
    have hb : countNL b = countNL (b.take (lslEnd b n b.length)) + countNL (b.drop (lslEnd b n b.length)) := by
      rw [← countNL_append, List.take_append_drop]
    omega
  | some j =>
    simp only [lineSuffixLen, h]
    obtain ⟨h1, h2, h3⟩ := lastNLIdx_spec _ _ h
    have he : lslEnd b n b.length ≤ b.length := lslEnd_le b n b.length
    have hj : j < lslEnd b n b.length := by
      simp [List.length_take] at h1; omega
    have hgoal : b.length - (b.length - (j+1)) = j + 1 := by omega
    rw [hgoal]
    have hje : (j+1) ≤ (b.take (lslEnd b n b.length)).length := by
      simp [List.length_take]; omega
    have hsplit : b.drop (j+1) = (b.take (lslEnd b n b.length)).drop (j+1) ++ b.drop (lslEnd b n b.length) := by
      calc b.drop (j+1) = ((b.take (lslEnd b n b.length)) ++ b.drop (lslEnd b n b.length)).drop (j+1) := by
            rw [List.take_append_drop]
      _ = _ := by
            rw [List.drop_append_eq_append_drop, Nat.sub_eq_zero_of_le hje, List.drop_zero]
    rw [hsplit, countNL_append, h3]
    omega

theorem lineSuffixLen_boundary (b : List Nat) (n : Nat)
    (h : lineSuffixLen b n < b.length) :
    b[(b.length - lineSuffixLen b n) - 1]? = some 10 := by
  cases hc : lastNLIdx (b.take (lslEnd b n b.length)) with
  | none => simp [lineSuffixLen, hc] at h
  | some j =>
    simp only [lineSuffixLen, hc] at h ⊢
    obtain ⟨h1, h2, h3⟩ := lastNLIdx_spec _ _ hc
    have he : lslEnd b n b.length ≤ b.length := lslEnd_le b n b.length
    have hj : j < lslEnd b n b.length := by simp [List.length_take] at h1; omega
    have hgoal : b.length - (b.length - (j+1)) - 1 = j := by omega
    rw [hgoal]
    rw [List.getElem?_take, if_pos hj] at h2
    exact h2

theorem splitNl_ne_nil (b : List Nat) : splitNl b ≠ [] := by
  cases b with
  | nil => simp [splitNl]
  | cons c rest =>
    simp only [splitNl]
    by_cases hc : c = 10
    · simp [hc]
    · simp only [hc, if_neg hc]
      cases h : splitNl rest <;> simp

theorem splitAfterNl_ne_nil (b : List Nat) : splitAfterNl b ≠ [] := by
  cases b with
  | nil => simp [splitAfterNl]
  | cons c rest =>
    simp only [splitAfterNl]
    by_cases hc : c = 10
    · simp [hc]
    · simp only [hc, if_neg hc]
      cases h : splitAfterNl rest <;> simp

theorem splitNl_length (b : List Nat) : (splitNl b).length = countNL b + 1 := by
  induction b with
  | nil => simp [splitNl, countNL]
  | cons c rest ih =>
    rw [countNL_cons]
    simp only [splitNl]
    by_cases hc : c = 10
    · subst hc
      rw [if_pos rfl]
      simp only [List.length_cons, ih, if_true, eq_self_iff_true]
      omega
    · rw [if_neg hc]
      have h0 : (if c = 10 then 1 else 0) = 0 := if_neg hc
      cases h : splitNl rest with
      | nil => exact absurd h (splitNl_ne_nil rest)
      | cons s ss =>
        rw [h] at ih
        simp only [List.length_cons] at ih ⊢
        omega

theorem splitAfterNl_length (b : List Nat) : (splitAfterNl b).length = countNL b + 1 := by
  induction b with
  | nil => simp [splitAfterNl, countNL]
  | cons c rest ih =>
    rw [countNL_cons]
    simp only [splitAfterNl]
    by_cases hc : c = 10
    · subst hc
      rw [if_pos rfl]
      simp only [List.length_cons, ih, if_true, eq_self_iff_true]
      omega
    · rw [if_neg hc]
      have h0 : (if c = 10 then 1 else 0) = 0 := if_neg hc
      cases h : splitAfterNl rest with
      | nil => exact absurd h (splitAfterNl_ne_nil rest)
      | cons s ss =>
        rw [h] at ih
        simp only [List.length_cons] at ih ⊢
        omega

theorem ends_with_of_getLast? (b : List Nat) (c : Nat) (h : b.getLast? = some c) :
    ∃ xs, b = xs ++ [c] := by
  induction b with
  | nil => simp at h
  | cons d rest ih =>
    cases rest with
    | nil =>
      simp at h
      exact ⟨[], by simp [h]⟩
    | cons d2 rest2 =>
      rw [List.getLast?_cons_cons] at h
      obtain ⟨xs, hxs⟩ := ih h
      exact ⟨d :: xs, by simp [hxs]⟩

theorem splitAfterNl_concat_last (xs : List Nat) :
    (splitAfterNl (xs ++ [10])).getLast? = some [] := by
  induction xs with
  | nil => simp [splitAfterNl]
  | cons c rest ih =>
    simp only [List.cons_append, splitAfterNl]
    by_cases hc : c = 10
    · subst hc
      rw [if_pos rfl]
      cases hs : splitAfterNl (rest ++ [10]) with
      | nil => exact absurd hs (splitAfterNl_ne_nil _)
      | cons s ss =>
        rw [hs] at ih
        cases ss with
        | nil =>
          have := splitAfterNl_length (rest ++ [10])
          rw [hs] at this
          simp [countNL_append, countNL] at this
        | cons s2 ss2 => rw [List.getLast?_cons_cons]; exact ih
    · rw [if_neg hc]
      cases hs : splitAfterNl (rest ++ [10]) with
      | nil => exact absurd hs (splitAfterNl_ne_nil _)
      | cons s ss =>
        rw [hs] at ih
        cases ss with
        | nil =>
          have := splitAfterNl_length (rest ++ [10])
          rw [hs] at this
          simp [countNL_append, countNL] at this
        | cons s2 ss2 =>
          rw [List.getLast?_cons_cons] at ih ⊢
          exact ih

theorem splitNl_concat_last (xs : List Nat) :
    (splitNl (xs ++ [10])).getLast? = some [] := by
  induction xs with
  | nil => simp [splitNl]
  | cons c rest ih =>
    simp only [List.cons_append, splitNl]
    by_cases hc : c = 10
    · subst hc
      rw [if_pos rfl]
      cases hs : splitNl (rest ++ [10]) with
      | nil => exact absurd hs (splitNl_ne_nil _)
      | cons s ss =>
        rw [hs] at ih
        cases ss with
        | nil =>
          have := splitNl_length (rest ++ [10])
          rw [hs] at this
          simp [countNL_append, countNL] at this
        | cons s2 ss2 => rw [List.getLast?_cons_cons]; exact ih
    · rw [if_neg hc]
      cases hs : splitNl (rest ++ [10]) with
      | nil => exact absurd hs (splitNl_ne_nil _)
      | cons s ss =>
        rw [hs] at ih
        cases ss with
        | nil =>
          have := splitNl_length (rest ++ [10])
          rw [hs] at this
          simp [countNL_append, countNL] at this
        | cons s2 ss2 =>
          rw [List.getLast?_cons_cons] at ih ⊢
          exact ih

theorem dropTrailingEmpty_length_of_last (ls : List (List Nat))
    (h : ls.getLast? = some []) : (dropTrailingEmpty ls).length = ls.length - 1 := by
  rw [dropTrailingEmpty, if_pos h, List.length_dropLast]

theorem dropTrailingEmpty_length_le (ls : List (List Nat)) :
    (dropTrailingEmpty ls).length ≤ ls.length := by
  rw [dropTrailingEmpty]
  by_cases h : ls.getLast? = some [] <;> simp [h, List.length_dropLast] <;> omega

theorem idxNL_eq_none (l : List Nat) : idxNL l = none ↔ countNL l = 0 := by
  induction l with
  | nil => simp [idxNL, countNL]
  | cons c rest ih =>
    rw [countNL_cons]
    simp only [idxNL]
    by_cases hc : c = 10
    · subst hc
      rw [if_pos rfl]
      simp
    · rw [if_neg hc]
      have h0 : (if c = 10 then 1 else 0) = 0 := if_neg hc
      cases h : idxNL rest with
      | none =>
        rw [h] at ih
        simp only [Option.map_none', true_iff] at ih
        simp [ih, h0]
      | some j =>
        have : countNL rest ≠ 0 := fun hr => by
          rw [ih.mpr hr] at h; exact Option.noConfusion h
        simp only [h, Option.map_some', reduceCtorEq, false_iff]
        omega

theorem idxNL_spec (l : List Nat) (j : Nat) (h : idxNL l = some j) :
    j < l.length ∧ l[j]? = some 10 ∧ countNL (l.take j) = 0 := by
  induction l generalizing j with
  | nil => simp [idxNL] at h
  | cons c rest ih =>
    simp only [idxNL] at h
    by_cases hc : c = 10
    · rw [if_pos hc] at h
      injection h with h
      subst h
      simp [hc, countNL]
    · rw [if_neg hc] at h
      cases h' : idxNL rest with
      | none => rw [h'] at h; exact Option.noConfusion h
      | some j' =>
        rw [h'] at h
        simp only [Option.map_some'] at h
        injection h with h
        subst h
        obtain ⟨h1, h2, h3⟩ := ih j' h'
        refine ⟨by simpa using h1, by simpa using h2, ?_⟩
        simp only [List.take_succ_cons]
        rw [countNL_cons, h3, if_neg hc]

theorem lplStart_shift (n : Nat) : ∀ (b : List Nat) (k : Nat), k ≤ b.length →
    lplStart b n k = k + linePrefixLen (b.drop k) n := by
  induction n with
  | zero => intro b k hk; simp [lplStart, linePrefixLen]
  | succ n ih =>
    intro b k hk
    cases h : idxNL (b.drop k) with
    | none =>
      simp only [linePrefixLen, lplStart, List.drop_zero, h, List.length_drop]
      omega
    | some j =>
      simp only [linePrefixLen, lplStart, List.drop_zero, h]
      obtain ⟨h1, h2, h3⟩ := idxNL_spec _ _ h
      simp only [List.length_drop] at h1
      have hk2 : k + j + 1 ≤ b.length := by omega
      have hk3 : j + 1 ≤ (b.drop k).length := by simp [List.length_drop]; omega
      rw [Nat.zero_add, ih (b.drop k) (j + 1) hk3, List.drop_drop]
      rw [show k + (j + 1) = k + j + 1 from by omega]
      rw [ih b (k + j + 1) hk2]
      omega

theorem linePrefixLen_succ (b : List Nat) (n : Nat) :
    linePrefixLen b (n + 1) =
      match idxNL b with
      | none => b.length
      | some j => (j + 1) + linePrefixLen (b.drop (j + 1)) n := by
  cases h : idxNL b with
  | none => simp only [linePrefixLen, lplStart, List.drop_zero, h]
  | some j =>
    simp only [linePrefixLen, lplStart, List.drop_zero, h]
    obtain ⟨h1, _, _⟩ := idxNL_spec _ _ h
    have := lplStart_shift n b (j + 1) (by omega)
    simpa using this

theorem splitNl_break (xs ys : List Nat) (h : countNL xs = 0) :
    splitNl (xs ++ 10 :: ys) = xs :: splitNl ys := by
  induction xs with
  | nil => simp [splitNl]
  | cons c xs' ih =>
    rw [countNL_cons] at h
    have hc : c ≠ 10 := by intro hc; rw [if_pos hc] at h; omega
    have h' : countNL xs' = 0 := by rw [if_neg hc] at h; omega
    simp only [List.cons_append, splitNl, if_neg hc, List.append_eq, ih h']

theorem dropTrailingEmpty_cons (p : List Nat) (S : List (List Nat)) (h : S ≠ []) :
    dropTrailingEmpty (p :: S) = p :: dropTrailingEmpty S := by
  cases S with
  | nil => exact absurd rfl h
  | cons s ss =>
    simp only [dropTrailingEmpty, List.getLast?_cons_cons]
    by_cases hl : (s :: ss).getLast? = some []
    · rw [if_pos hl, if_pos hl]
      rfl
    · rw [if_neg hl, if_neg hl]

theorem afterLines_le (n : Nat) : ∀ b : List Nat,
    (dropTrailingEmpty (splitNl (b.take (linePrefixLen b n)))).length ≤ n := by
  induction n with
  | zero =>
    intro b
    simp [linePrefixLen, lplStart, splitNl, dropTrailingEmpty]
  | succ n ih =>
    intro b
    rw [linePrefixLen_succ]
    cases h : idxNL b with
    | none =>
      have h0 : countNL b = 0 := (idxNL_eq_none b).mp h
      have hlen := splitNl_length b
      rw [h0] at hlen
      simp only [List.take_length]
      calc (dropTrailingEmpty (splitNl b)).length ≤ (splitNl b).length :=
            dropTrailingEmpty_length_le _
      _ = 1 := hlen
      _ ≤ n + 1 := by omega
    | some j =>
      obtain ⟨h1, h2, h3⟩ := idxNL_spec _ _ h
      have htake : b.take (j + 1 + linePrefixLen (b.drop (j + 1)) n) =
          b.take j ++ 10 :: (b.drop (j + 1)).take (linePrefixLen (b.drop (j + 1)) n) := by
        rw [List.take_add, List.take_succ, h2]
        simp
      rw [htake, splitNl_break _ _ h3,
        dropTrailingEmpty_cons _ _ (splitNl_ne_nil _), List.length_cons]
      have := ih (b.drop (j + 1))
      omega

theorem getLast?_suffix (l : List Nat) (k : Nat) (h : l.drop k ≠ []) :
    (l.drop k).getLast? = l.getLast? := by
  conv_rhs => rw [← List.take_append_drop k l]
  rw [List.getLast?_append_of_ne_nil _ h]

theorem beforeLines_le (n : Nat) (b : List Nat)
    (hb : b = [] ∨ b.getLast? = some 10) :
    (dropTrailingEmpty (splitAfterNl (b.drop (b.length - lineSuffixLen b n)))).length ≤ n := by
  by_cases hreg : b.drop (b.length - lineSuffixLen b n) = []
  · rw [hreg]
    simp [splitAfterNl, dropTrailingEmpty]
  · have hbne : b ≠ [] := by
      intro h0; rw [h0] at hreg; simp at hreg
    have hlast : b.getLast? = some 10 := hb.resolve_left hbne
    have hregLast : (b.drop (b.length - lineSuffixLen b n)).getLast? = some 10 := by
      rw [getLast?_suffix _ _ hreg]; exact hlast
    obtain ⟨xs, hxs⟩ := ends_with_of_getLast? _ _ hregLast
    have hcount := countNL_suffix_region b n
    rw [hxs] at hcount ⊢
    rw [dropTrailingEmpty_length_of_last _ (splitAfterNl_concat_last xs)]
    rw [splitAfterNl_length]
    omega

/-! ## Claim support: LineContext (C6, C9, C10) -/

theorem LineContext_before_length (nB nA : Nat) (buf : List Nat) (ls le : Nat) :
    (LineContext nB nA buf ls le).1.length =
      (dropTrailingEmpty (splitAfterNl
        ((buf.take ls).drop (ls - lineSuffixLen (buf.take ls) nB)))).length := by
  simp [LineContext]

theorem LineContext_after_length (nB nA : Nat) (buf : List Nat) (ls le : Nat) :
    (LineContext nB nA buf ls le).2.2.length =
      (dropTrailingEmpty (splitNl
        ((buf.drop le).take (linePrefixLen (buf.drop le) nA)))).length := by
  simp [LineContext]

/-- C9: for every buffer and valid line span (a `lineStart` sitting at a
line boundary inside the buffer), `LineContext` returns at most
`beforeCount` before-lines and at most `afterCount` after-lines, fewer at
stream boundaries and never an error (the function is total); and for
newline-terminated lines `a`,`b`,`MATCH`,`c`,`d` with counts 1/1 it
returns `before = [b]` and `after = [c]`. -/
theorem c9_context_counts :
    (∀ (numBefore numAfter : Nat) (buf : List Nat) (lineStart lineEnd : Nat),
      lineStart ≤ buf.length →
      (lineStart = 0 ∨ buf[lineStart - 1]? = some 10) →
      (LineContext numBefore numAfter buf lineStart lineEnd).1.length ≤ numBefore ∧
      (LineContext numBefore numAfter buf lineStart lineEnd).2.2.length ≤ numAfter) ∧
    LineContext 1 1 [97,10,98,10,120,10,99,10,100,10] 4 6 = ([[98]], [120], [[99]]) := by
  constructor
  · intro nB nA buf ls le hls hvalid
    constructor
    · rw [LineContext_before_length]
      have hb : buf.take ls = [] ∨ (buf.take ls).getLast? = some 10 := by
        by_cases h0 : ls = 0
        · left; simp [h0]
        · right
          rcases hvalid with h0' | h10
          · exact absurd h0' h0
          · have hlen : (buf.take ls).length = ls := by
              rw [List.length_take]; omega
            rw [List.getLast?_eq_getElem?, hlen, List.getElem?_take,
              if_pos (by omega)]
            exact h10
      have := beforeLines_le nB (buf.take ls) hb
      have hlen : (buf.take ls).length = ls := by rw [List.length_take]; omega
      rw [hlen] at this
      exact this
    · rw [LineContext_after_length]
      exact afterLines_le nA (buf.drop le)
  · decide




theorem commonLen_le_left (a b : List Nat) : commonLen a b ≤ a.length := by
  induction a generalizing b with
  | nil => simp [commonLen]
  | cons x as ih =>
    cases b with
    | nil => simp [commonLen]
    | cons y bs =>
      simp only [commonLen]
      by_cases h : x = y
      · rw [if_pos h]; simp; exact ih bs
      · rw [if_neg h]; simp

theorem commonLen_take_eq (a b : List Nat) :
    a.take (commonLen a b) = b.take (commonLen a b) := by
  induction a generalizing b with
  | nil => simp [commonLen]
  | cons x as ih =>
    cases b with
    | nil => simp [commonLen]
    | cons y bs =>
      simp only [commonLen]
      by_cases h : x = y
      · rw [if_pos h]
        simp only [List.take_succ_cons, h]
        rw [ih bs]
      · rw [if_neg h]; simp

theorem commonLen_eq_length_iff_initseg (a b : List Nat) :
    commonLen a b = a.length ↔ a <+: b := by
  induction a generalizing b with
  | nil => simp [commonLen]
  | cons x as ih =>
    cases b with
    | nil =>
      simp [commonLen]
    | cons y bs =>
      simp only [commonLen]
      by_cases h : x = y
      · rw [if_pos h]
        simp only [List.length_cons, Nat.add_right_cancel_iff, h,
          List.cons_prefix_cons, true_and]
        exact ih bs
      · rw [if_neg h]
        simp only [List.length_cons, List.cons_prefix_cons]
        constructor
        · omega
        · rintro ⟨h1, _⟩; exact absurd h1 h

theorem commonLen_maximal (a b : List Nat) (k : Nat) (hk : k ≤ a.length)
    (h : a.take k = b.take k) : k ≤ commonLen a b := by
  induction a generalizing b k with
  | nil => simp at hk; omega
  | cons x as ih =>
    cases b with
    | nil =>
      cases k with
      | zero => omega
      | succ k' => simp at h
    | cons y bs =>
      cases k with
      | zero => omega
      | succ k' =>
        simp only [List.take_succ_cons, List.cons.injEq] at h
        simp only [commonLen, if_pos h.1]
        have := ih bs k' (by simpa using hk) h.2
        omega

/-- The prefix-narrowing rule as the claim words it. -/
def updatePrefixClaim (pfx : Option (List Nat)) (line : List Nat) : List Nat :=
  match pfx with
  | none => line.take (leadingWS line)
  | some p => p.take (commonLen line p)

/-- `LineContext` computed with the claim's narrowing rule. -/
def LineContextClaim (numBefore numAfter : Nat) (buf : List Nat)
    (lineStart lineEnd : Nat) :
    List (List Nat) × List Nat × List (List Nat) :=
  let beforeChunk :=
    (buf.take lineStart).drop (lineStart - lineSuffixLen (buf.take lineStart) numBefore)
  let afterChunk :=
    ((buf.drop lineEnd).take (linePrefixLen (buf.drop lineEnd) numAfter))
  let line := chomp ((buf.take lineEnd).drop lineStart)
  let before := (dropTrailingEmpty (splitAfterNl beforeChunk)).map chomp
  let after := (dropTrailingEmpty (splitNl afterChunk)).map chomp
  let p0 := updatePrefixClaim none line
  let p1 := before.foldl (fun p l => updatePrefixClaim (some p) l) p0
  let p2 := after.foldl (fun p l => updatePrefixClaim (some p) l) p1
  (before.map (fun l => cutPrefix l p2), cutPrefix line p2,
    after.map (fun l => cutPrefix l p2))

/-- C6 counterexample: `updatePrefix` does NOT narrow the prefix to the
line's own length when the line is a shorter literal prefix match — it
returns the prefix unchanged (match.go line 271 `return prefix`); and a
whole `LineContext` window (one with a blank line) distinguishes the code
from the claim's narrowing rule (`LineContextClaim`). -/
theorem c6_counterexample :
    updatePrefix (some [32, 32]) [32] = [32, 32] ∧
    updatePrefix (some [32, 32]) [32] ≠ ([32, 32] : List Nat).take (commonLen [32] [32, 32]) ∧
    LineContext 0 2 [32,32,32,32,97,10,10,32,32,32,32,98,10] 0 6 ≠
      LineContextClaim 0 2 [32,32,32,32,97,10,10,32,32,32,32,98,10] 0 6 := by
  refine ⟨by decide, by decide, by decide⟩

/-- C6 amended: `LineContext` seeds the shared prefix with the leading
space/tab run of the match line; for every subsequent line, a line that is
a literal prefix of the current prefix leaves it unchanged (rather than
narrowing it to the line's own length), and otherwise the prefix is
narrowed to the longest initial byte-run common with that line; the lines
`["    x","  y"]` yield a shared prefix of length 2 and output
`["  x","y"]`. -/
theorem c6_amended :
    (∀ l : List Nat, updatePrefix none l = l.take (leadingWS l)) ∧
    (∀ (p l : List Nat), l <+: p → updatePrefix (some p) l = p) ∧
    (∀ (p l : List Nat), ¬ l <+: p →
      updatePrefix (some p) l = p.take (commonLen l p) ∧
      l.take (commonLen l p) = p.take (commonLen l p) ∧
      (∀ k, k ≤ l.length → l.take k = p.take k → k ≤ commonLen l p)) ∧
    LineContext 0 1 [32,32,32,32,120,10,32,32,121,10] 0 6 =
      ([], [32,32,120], [[121]]) := by
  refine ⟨fun l => rfl, ?_, ?_, by decide⟩
  · intro p l h
    have hc : commonLen l p = l.length := (commonLen_eq_length_iff_initseg l p).mpr h
    simp only [updatePrefix, hc, le_refl, if_pos]
  · intro p l h
    have hne : commonLen l p ≠ l.length := fun hc =>
      h ((commonLen_eq_length_iff_initseg l p).mp hc)
    have hle := commonLen_le_left l p
    refine ⟨?_, commonLen_take_eq l p, fun k hk hke => commonLen_maximal l p k hk hke⟩
    simp only [updatePrefix, if_neg (by omega : ¬ l.length ≤ commonLen l p)]

theorem updatePrefix_nil (p : List Nat) : updatePrefix (some p) [] = p := by
  simp [updatePrefix, commonLen]

/-- C10: a context-window line that is empty after chomping leaves the
shared dedent prefix unchanged (`updatePrefix` returns `p`), prefix
stripping on such a line returns an empty line instead of failing
(`cutPrefix [] p = []`), and blank lines never affect the computed prefix
(folding `updatePrefix` ignores empty lines), so the remaining lines still
lose the full shared whitespace prefix — as in the window
`"    a\n" / "" / "    b\n"`. -/
theorem c10_blank_lines :
    (∀ p : List Nat, updatePrefix (some p) [] = p) ∧
    (∀ p : List Nat, cutPrefix [] p = []) ∧
    (∀ (P : List Nat) (lines : List (List Nat)),
      lines.foldl (fun p l => updatePrefix (some p) l) P =
        (lines.filter (fun l => !l.isEmpty)).foldl
          (fun p l => updatePrefix (some p) l) P) ∧
    LineContext 0 2 [32,32,32,32,97,10,10,32,32,32,32,98,10] 0 6 =
      ([], [97], [[], [98]]) := by
  refine ⟨updatePrefix_nil, ?_, ?_, by decide⟩
  · intro p
    cases p <;> simp [cutPrefix]
  · intro P lines
    induction lines generalizing P with
    | nil => rfl
    | cons l ls ih =>
      by_cases hl : l = []
      · subst hl
        simp only [List.foldl_cons, updatePrefix_nil, List.filter_cons,
          List.isEmpty_nil, Bool.not_true, Bool.false_eq_true, if_neg]
        exact ih P
      · have : (!l.isEmpty) = true := by
          cases l with
          | nil => exact absurd rfl hl
          | cons c cs => rfl
        simp only [List.foldl_cons, List.filter_cons, this, if_pos]
        exact ih _

/-- Witness for `c9_context_counts` at the `a`,`b`,`MATCH`,`c`,`d` buffer. -/
theorem c9_context_counts_witness :
    (4 ≤ ([97,10,98,10,120,10,99,10,100,10] : List Nat).length) ∧
    (LineContext 1 1 [97,10,98,10,120,10,99,10,100,10] 4 6).1.length ≤ 1 ∧
    (LineContext 1 1 [97,10,98,10,120,10,99,10,100,10] 4 6).2.2.length ≤ 1 :=
  ⟨by decide,
    (c9_context_counts.1 1 1 [97,10,98,10,120,10,99,10,100,10] 4 6 (by decide)
      (Or.inr (by decide))).1,
    (c9_context_counts.1 1 1 [97,10,98,10,120,10,99,10,100,10] 4 6 (by decide)
      (Or.inr (by decide))).2⟩

/-- Witness for `c6_amended`: the literal-prefix case and the divergence
case, each at a concrete input. -/
theorem c6_amended_witness :
    ([32] <+: [32, 32] ∧ updatePrefix (some [32, 32]) [32] = [32, 32]) ∧
    (¬ [32, 121] <+: [32, 32] ∧
      updatePrefix (some [32, 32]) [32, 121] =
        ([32, 32] : List Nat).take (commonLen [32, 121] [32, 32])) :=
  ⟨⟨by decide, c6_amended.2.1 [32, 32] [32] (by decide)⟩,
    ⟨by decide, (c6_amended.2.2.1 [32, 32] [32, 121] (by decide)).1⟩⟩

/-! ## C1: reader granularity -/

theorem readFullGo_min (grain : Nat) (h : 1 ≤ grain) :
    ∀ (fuel req rem : Nat), req ≤ fuel → readFullGo grain fuel req rem = min req rem := by
  intro fuel
  induction fuel with
  | zero =>
    intro req rem hf
    have : req = 0 := by omega
    simp [this, readFullGo]
  | succ fuel ih =>
    intro req rem hf
    simp only [readFullGo]
    by_cases hd : min grain (min req rem) = 0
    · rw [if_pos hd]
      omega
    · rw [if_neg hd]
      rw [ih (req - min grain (min req rem)) (rem - min grain (min req rem)) (by omega)]
      omega

theorem readFullG_min (grain : Nat) (h : 1 ≤ grain) :
    readFullG grain = fun req rem => min req rem := by
  funext req rem
  exact readFullGo_min grain h req req rem (le_refl req)

theorem reader_grain_irrelevant (g : Grep) (m : Matcher) (content : List Nat)
    (g1 g2 : Nat) (h1 : 1 ≤ g1) (h2 : 1 ≤ g2) :
    Grep.Reader g m g1 content = Grep.Reader g m g2 content := by
  simp only [Grep.Reader, readFullG_min g1 h1, readFullG_min g2 h2]

/-- C1: feeding the same content through a one-byte-at-a-time reader and
through a reader that returns the whole content in a single read gives
identical `Reader` runs — the same reported matches (hence the same line
numbers) and the same context windows. -/
theorem c1_reader_granularity (g : Grep) (m : Matcher) (content : List Nat) :
    Grep.Reader g m 1 content = Grep.Reader g m (content.length.max 1) content ∧
    ((Grep.Reader g m 1 content).2.evs.map (fun e =>
        LineContext g.cfg.preContext g.cfg.postContext e.buf e.lineStart e.lineEnd)) =
      ((Grep.Reader g m (content.length.max 1) content).2.evs.map (fun e =>
        LineContext g.cfg.preContext g.cfg.postContext e.buf e.lineStart e.lineEnd)) := by
  have h := reader_grain_irrelevant g m content 1 (content.length.max 1)
    (le_refl 1) (Nat.le_max_right _ _)
  exact ⟨h, by rw [h]⟩

/-! ## C3: state shared across files -/

theorem innerLoop_st_indep (cfg : GrepCfg) (m : Matcher) (buf : List Nat)
    (endPos : Nat) (endText : Bool) (base readsC maxB : Nat) :
    ∀ (fuel cs lineno : Nat) (bt : Bool) (count : Nat) (st st' : GrepState) (calls : Nat),
      (innerLoop cfg 0 m buf endPos endText base readsC maxB fuel cs lineno bt count st calls).evs =
        (innerLoop cfg 0 m buf endPos endText base readsC maxB fuel cs lineno bt count st' calls).evs ∧
      (innerLoop cfg 0 m buf endPos endText base readsC maxB fuel cs lineno bt count st calls).count =
        (innerLoop cfg 0 m buf endPos endText base readsC maxB fuel cs lineno bt count st' calls).count ∧
      (innerLoop cfg 0 m buf endPos endText base readsC maxB fuel cs lineno bt count st calls).calls =
        (innerLoop cfg 0 m buf endPos endText base readsC maxB fuel cs lineno bt count st' calls).calls ∧
      (innerLoop cfg 0 m buf endPos endText base readsC maxB fuel cs lineno bt count st calls).aborted =
        (innerLoop cfg 0 m buf endPos endText base readsC maxB fuel cs lineno bt count st' calls).aborted ∧
      (innerLoop cfg 0 m buf endPos endText base readsC maxB fuel cs lineno bt count st calls).cs =
        (innerLoop cfg 0 m buf endPos endText base readsC maxB fuel cs lineno bt count st' calls).cs ∧
      (innerLoop cfg 0 m buf endPos endText base readsC maxB fuel cs lineno bt count st calls).lineno =
        (innerLoop cfg 0 m buf endPos endText base readsC maxB fuel cs lineno bt count st' calls).lineno ∧
      (innerLoop cfg 0 m buf endPos endText base readsC maxB fuel cs lineno bt count st calls).bt =
        (innerLoop cfg 0 m buf endPos endText base readsC maxB fuel cs lineno bt count st' calls).bt := by
  intro fuel
  induction fuel with
  | zero => intro cs lineno bt count st st' calls; simp [innerLoop]
  | succ fuel ih =>
    intro cs lineno bt count st st' calls
    by_cases hcs : cs < endPos
    · cases hm : m ((buf.take endPos).drop cs) bt endText with
      | none => simp [innerLoop, if_pos hcs, hm]
      | some off =>
        simp only [innerLoop, if_pos hcs, hm]
        have hlim : ¬ (0 < 0 ∧ 0 ≤ st.nMatches) := by omega
        have hlim' : ¬ (0 < 0 ∧ 0 ≤ st'.nMatches) := by omega
        rw [if_neg hlim, if_neg hlim']
        by_cases hfl : cfg.flagL
        · rw [if_pos hfl, if_pos hfl]
          simp
        · rw [if_neg hfl, if_neg hfl]
          have := ih (min (cs + off + 1) endPos)
            (if needLineno cfg then
              (if needLineno cfg then
                lineno + countNL ((buf.take ((match lastNLIdx ((buf.take (cs + off)).drop cs) with
                  | none => 0 | some j => j + 1) + cs)).drop cs)
              else lineno) + 1
            else (if needLineno cfg then
                lineno + countNL ((buf.take ((match lastNLIdx ((buf.take (cs + off)).drop cs) with
                  | none => 0 | some j => j + 1) + cs)).drop cs)
              else lineno))
            false
            (if cfg.flagC then count + 1 else count)
            ⟨true, st.nMatches + 1, st.limited⟩ ⟨true, st'.nMatches + 1, st'.limited⟩
            (calls + 1)
          simp only [] at this ⊢
          refine ⟨?_, this.2.1, this.2.2.1, this.2.2.2.1, this.2.2.2.2.1,
            this.2.2.2.2.2.1, this.2.2.2.2.2.2⟩
          rw [this.1]
    · simp only [innerLoop, if_neg hcs]
      simp

theorem outerLoop_st_indep (cfg : GrepCfg) (m : Matcher) (rf : Nat → Nat → Nat)
    (cap : Nat) :
    ∀ (fuel : Nat) (src buf : List Nat) (cs lineno count base reads calls maxB : Nat)
      (bt : Bool) (st st' : GrepState),
      (outerLoop cfg 0 m rf cap fuel src buf cs lineno count base reads calls maxB bt st).evs =
        (outerLoop cfg 0 m rf cap fuel src buf cs lineno count base reads calls maxB bt st').evs ∧
      (outerLoop cfg 0 m rf cap fuel src buf cs lineno count base reads calls maxB bt st).count =
        (outerLoop cfg 0 m rf cap fuel src buf cs lineno count base reads calls maxB bt st').count ∧
      (outerLoop cfg 0 m rf cap fuel src buf cs lineno count base reads calls maxB bt st).reads =
        (outerLoop cfg 0 m rf cap fuel src buf cs lineno count base reads calls maxB bt st').reads ∧
      (outerLoop cfg 0 m rf cap fuel src buf cs lineno count base reads calls maxB bt st).calls =
        (outerLoop cfg 0 m rf cap fuel src buf cs lineno count base reads calls maxB bt st').calls ∧
      (outerLoop cfg 0 m rf cap fuel src buf cs lineno count base reads calls maxB bt st).maxBuf =
        (outerLoop cfg 0 m rf cap fuel src buf cs lineno count base reads calls maxB bt st').maxBuf ∧
      (outerLoop cfg 0 m rf cap fuel src buf cs lineno count base reads calls maxB bt st).panicked =
        (outerLoop cfg 0 m rf cap fuel src buf cs lineno count base reads calls maxB bt st').panicked := by
  intro fuel
  induction fuel with
  | zero => intro src buf cs lineno count base reads calls maxB bt st st'; simp [outerLoop]
  | succ fuel ih =>
    intro src buf cs lineno count base reads calls maxB bt st st'
    simp only [outerLoop]
    set n := rf (cap - buf.length) src.length with hn
    set buf1 := buf ++ src.take n with hbuf1
    set endPos := scanEnd buf1 cfg.postContext (n == cap - buf.length) with hend
    set maxB1 := max maxB buf1.length with hmb1
    set r := innerLoop cfg 0 m buf1 endPos (!(n == cap - buf.length)) base (reads + 1)
      maxB1 (endPos + 1) cs lineno bt count st calls with hr
    set r2 := innerLoop cfg 0 m buf1 endPos (!(n == cap - buf.length)) base (reads + 1)
      maxB1 (endPos + 1) cs lineno bt count st' calls with hr2
    have hin := innerLoop_st_indep cfg m buf1 endPos (!(n == cap - buf.length)) base
      (reads + 1) maxB1 (endPos + 1) cs lineno bt count st st' calls
    rw [← hr, ← hr2] at hin
    obtain ⟨hevs, hcount, hcalls, hab, hcs, hlineno, hbt⟩ := hin
    rw [← hevs, ← hcount, ← hcalls, ← hab, ← hcs, ← hlineno, ← hbt]
    by_cases habo : r.aborted
    · rw [if_pos habo, if_pos habo]
      simp
    · rw [if_neg habo, if_neg habo]
      by_cases hpan : (needLineno cfg && (n == cap - buf.length) &&
          decide (endPos < r.cs)) = true
      · rw [if_pos hpan, if_pos hpan]
        simp
      · rw [if_neg hpan, if_neg hpan]
        by_cases hcont : ((n == cap - buf.length) && !(n == 0)) = true
        · rw [if_pos hcont, if_pos hcont]
          set d := slideAmt buf1 endPos cfg.preContext with hd
          have hrec := ih (src.drop n) (buf1.drop (endPos - d)) d
            (if needLineno cfg && (n == cap - buf.length) then
              r.lineno + countNL ((buf1.take endPos).drop r.cs) else r.lineno)
            r.count (base + (endPos - d)) (reads + 1) r.calls maxB1 r.bt r.st r2.st
          refine ⟨?_, hrec.2.1, hrec.2.2.1, hrec.2.2.2.1, hrec.2.2.2.2.1,
            hrec.2.2.2.2.2⟩
          rw [hrec.1]
        · rw [if_neg hcont, if_neg hcont]
          simp

theorem innerLoop_limited_stable (cfg : GrepCfg) (m : Matcher) (buf : List Nat)
    (endPos : Nat) (endText : Bool) (base readsC maxB : Nat) :
    ∀ (fuel cs lineno : Nat) (bt : Bool) (count : Nat) (st : GrepState) (calls : Nat),
      (innerLoop cfg 0 m buf endPos endText base readsC maxB fuel cs lineno bt count st calls).st.limited
        = st.limited := by
  intro fuel
  induction fuel with
  | zero => intro cs lineno bt count st calls; simp [innerLoop]
  | succ fuel ih =>
    intro cs lineno bt count st calls
    by_cases hcs : cs < endPos
    · cases hm : m ((buf.take endPos).drop cs) bt endText with
      | none => simp [innerLoop, if_pos hcs, hm]
      | some off =>
        simp only [innerLoop, if_pos hcs, hm]
        have hlim : ¬ (0 < 0 ∧ 0 ≤ st.nMatches) := by omega
        rw [if_neg hlim]
        by_cases hfl : cfg.flagL
        · rw [if_pos hfl]
        · rw [if_neg hfl]
          exact ih _ _ _ _ _ _
    · simp [innerLoop, if_neg hcs]

theorem outerLoop_limited_stable (cfg : GrepCfg) (m : Matcher)
    (rf : Nat → Nat → Nat) (cap : Nat) :
    ∀ (fuel : Nat) (src buf : List Nat) (cs lineno count base reads calls maxB : Nat)
      (bt : Bool) (st : GrepState),
      (outerLoop cfg 0 m rf cap fuel src buf cs lineno count base reads calls maxB bt st).st.limited
        = st.limited := by
  intro fuel
  induction fuel with
  | zero => intro src buf cs lineno count base reads calls maxB bt st; simp [outerLoop]
  | succ fuel ih =>
    intro src buf cs lineno count base reads calls maxB bt st
    simp only [outerLoop]
    set n := rf (cap - buf.length) src.length with hn
    set buf1 := buf ++ src.take n with hbuf1
    set endPos := scanEnd buf1 cfg.postContext (n == cap - buf.length) with hend
    set maxB1 := max maxB buf1.length with hmb1
    set r := innerLoop cfg 0 m buf1 endPos (!(n == cap - buf.length)) base (reads + 1)
      maxB1 (endPos + 1) cs lineno bt count st calls with hr
    have hrl : r.st.limited = st.limited := by
      rw [hr]
      exact innerLoop_limited_stable cfg m buf1 endPos (!(n == cap - buf.length))
        base (reads + 1) maxB1 _ _ _ _ _ _ _
    by_cases habo : r.aborted
    · rw [if_pos habo]
      exact hrl
    · rw [if_neg habo]
      by_cases hpan : (needLineno cfg && (n == cap - buf.length) &&
          decide (endPos < r.cs)) = true
      · rw [if_pos hpan]
        exact hrl
      · rw [if_neg hpan]
        by_cases hcont : ((n == cap - buf.length) && !(n == 0)) = true
        · rw [if_pos hcont]
          rw [ih]
          exact hrl
        · rw [if_neg hcont]
          exact hrl

/-- C3 counterexample: `g.Matches` and `g.Limited` live on the `Grep` value
and survive `Reader` calls (match.go lines 36-39, 109-114), and the caller
`searchPartial` (sdweb) relies on it by checking `g.Limited` between files.
With `Limit = 1`, a second `Reader` call on a one-match file emits no match
and sets `Limited`, while the same file scanned by a fresh `Grep` emits
one match — so per-file outcomes are not independent of earlier files. -/
theorem c3_counterexample :
    (Grep.Reader (Grep.Reader ⟨⟨0, 0, true, false, false, false⟩, 1, freshGrepState⟩
        (lineMatcher 97) 1 [97, 10]).1 (lineMatcher 97) 1 [97, 10]).2.evs.length = 0 ∧
    (Grep.Reader ⟨⟨0, 0, true, false, false, false⟩, 1, freshGrepState⟩
        (lineMatcher 97) 1 [97, 10]).2.evs.length = 1 ∧
    (Grep.Reader (Grep.Reader ⟨⟨0, 0, true, false, false, false⟩, 1, freshGrepState⟩
        (lineMatcher 97) 1 [97, 10]).1 (lineMatcher 97) 1 [97, 10]).2.st.limited = true ∧
    (Grep.Reader ⟨⟨0, 0, true, false, false, false⟩, 1, freshGrepState⟩
        (lineMatcher 97) 1 [97, 10]).2.st.limited = false := by
  refine ⟨by decide, by decide, by decide, by decide⟩

/-- C3 amended: the per-call scan locals (`lineno`, `count`, the buffer
markers) are created afresh by each `Reader` call, but the match counter
and the limited flag are fields of `Grep` and persist across calls; only
the limit check reads them, so with `Limit = 0` the reported matches and
all other per-file observables are independent of the carried state (and
the limited flag is never set), while with a positive limit they are not
(see the counterexample). -/
theorem c3_amended (cfg : GrepCfg) (m : Matcher) (grain : Nat)
    (content : List Nat) (st : GrepState) :
    (Grep.Reader ⟨cfg, 0, st⟩ m grain content).2.evs =
      (Grep.Reader ⟨cfg, 0, freshGrepState⟩ m grain content).2.evs ∧
    (Grep.Reader ⟨cfg, 0, st⟩ m grain content).2.count =
      (Grep.Reader ⟨cfg, 0, freshGrepState⟩ m grain content).2.count ∧
    (Grep.Reader ⟨cfg, 0, st⟩ m grain content).2.reads =
      (Grep.Reader ⟨cfg, 0, freshGrepState⟩ m grain content).2.reads ∧
    (Grep.Reader ⟨cfg, 0, st⟩ m grain content).2.calls =
      (Grep.Reader ⟨cfg, 0, freshGrepState⟩ m grain content).2.calls ∧
    (Grep.Reader ⟨cfg, 0, st⟩ m grain content).2.st.limited = st.limited := by
  have h := outerLoop_st_indep cfg m (readFullG grain) bufCap
    (content.length + 1) content [] 0 1 0 0 0 0 0 true st freshGrepState
  refine ⟨h.1, h.2.1, h.2.2.1, h.2.2.2.1, ?_⟩
  exact outerLoop_limited_stable cfg m (readFullG grain) bufCap
    (content.length + 1) content [] 0 1 0 0 0 0 0 true st

/-! ## C8: bounded buffer and slide -/

theorem readFullGo_le (grain : Nat) :
    ∀ (fuel req rem : Nat), readFullGo grain fuel req rem ≤ min req rem := by
  intro fuel
  induction fuel with
  | zero => intro req rem; simp [readFullGo]
  | succ fuel ih =>
    intro req rem
    simp only [readFullGo]
    by_cases hd : min grain (min req rem) = 0
    · rw [if_pos hd]; omega
    · rw [if_neg hd]
      have := ih (req - min grain (min req rem)) (rem - min grain (min req rem))
      omega

theorem readFullG_le (grain req rem : Nat) : readFullG grain req rem ≤ min req rem :=
  readFullGo_le grain req req rem

theorem countNL_drop_le (l : List Nat) (a b : Nat) (h : a ≤ b) :
    countNL (l.drop b) ≤ countNL (l.drop a) := by
  have hsub : l.drop b = (l.drop a).drop (b - a) := by
    rw [List.drop_drop]
    congr 1
    omega
  rw [hsub]
  conv_rhs => rw [← List.take_append_drop (b - a) (l.drop a)]
  rw [countNL_append]
  omega

theorem slideAmt_count (buf : List Nat) (endPos pre : Nat) :
    countNL ((buf.take endPos).drop (endPos - slideAmt buf endPos pre)) ≤ pre := by
  by_cases hd : lineSuffixLen (buf.take endPos) pre = endPos
  · rw [slideAmt, if_pos hd, Nat.sub_zero]
    have : (buf.take endPos).drop endPos = [] := by
      apply List.drop_eq_nil_of_le
      simp [List.length_take]
    simp [this, countNL]
  · rw [slideAmt, if_neg hd]
    have hle : lineSuffixLen (buf.take endPos) pre ≤ (buf.take endPos).length :=
      lineSuffixLen_le _ _
    have hreg := countNL_suffix_region (buf.take endPos) pre
    have hmono := countNL_drop_le (buf.take endPos)
      ((buf.take endPos).length - lineSuffixLen (buf.take endPos) pre)
      (endPos - lineSuffixLen (buf.take endPos) pre)
      (by simp [List.length_take]; omega)
    omega

theorem outerLoop_maxBuf (cfg : GrepCfg) (limit : Nat) (m : Matcher)
    (rf : Nat → Nat → Nat) (cap : Nat) (hrf : ∀ req rem, rf req rem ≤ req) :
    ∀ (fuel : Nat) (src buf : List Nat) (cs lineno count base reads calls maxB : Nat)
      (bt : Bool) (st : GrepState), buf.length ≤ cap → maxB ≤ cap →
      (outerLoop cfg limit m rf cap fuel src buf cs lineno count base reads calls maxB bt st).maxBuf ≤ cap := by
  intro fuel
  induction fuel with
  | zero => intro src buf cs lineno count base reads calls maxB bt st hb hm; simpa [outerLoop]
  | succ fuel ih =>
    intro src buf cs lineno count base reads calls maxB bt st hb hm
    simp only [outerLoop]
    set n := rf (cap - buf.length) src.length with hn
    set buf1 := buf ++ src.take n with hbuf1
    have hb1 : buf1.length ≤ cap := by
      rw [hbuf1]
      have h1 : n ≤ cap - buf.length := hrf _ _
      have h2 : (src.take n).length ≤ n := by simp [List.length_take]
      simp only [List.length_append]
      omega
    set endPos := scanEnd buf1 cfg.postContext (n == cap - buf.length) with hend
    set maxB1 := max maxB buf1.length with hmb1
    have hm1 : maxB1 ≤ cap := by rw [hmb1]; omega
    set r := innerLoop cfg limit m buf1 endPos (!(n == cap - buf.length)) base (reads + 1)
      maxB1 (endPos + 1) cs lineno bt count st calls with hr
    by_cases habo : r.aborted
    · rw [if_pos habo]; exact hm1
    · rw [if_neg habo]
      by_cases hpan : (needLineno cfg && (n == cap - buf.length) &&
          decide (endPos < r.cs)) = true
      · rw [if_pos hpan]; exact hm1
      · rw [if_neg hpan]
        by_cases hcont : ((n == cap - buf.length) && !(n == 0)) = true
        · rw [if_pos hcont]
          set d := slideAmt buf1 endPos cfg.preContext with hd
          apply ih
          · calc (buf1.drop (endPos - d)).length ≤ buf1.length := by
                  simp [List.length_drop]
            _ ≤ cap := hb1
          · exact hm1
        · rw [if_neg hcont]; exact hm1

/-- C8: during every scan (any matcher, any source, any reader granularity)
the working buffer never grows beyond the fixed `1<<20` capacity; the
slide preserves at most `PreContext` trailing complete lines (the
preserved region contains at most `PreContext` newlines), and when
preserving them would require keeping the entire processed region
(`d == end`) the slide preserves nothing instead of growing the buffer. -/
theorem c8_bounded_buffer :
    (∀ (g : Grep) (m : Matcher) (grain : Nat) (content : List Nat),
      (Grep.Reader g m grain content).2.maxBuf ≤ bufCap) ∧
    (∀ (buf : List Nat) (endPos pre : Nat),
      countNL ((buf.take endPos).drop (endPos - slideAmt buf endPos pre)) ≤ pre) ∧
    (∀ (buf : List Nat) (endPos pre : Nat),
      lineSuffixLen (buf.take endPos) pre = endPos → slideAmt buf endPos pre = 0) := by
  refine ⟨?_, slideAmt_count, ?_⟩
  · intro g m grain content
    exact outerLoop_maxBuf g.cfg g.limit m (readFullG grain) bufCap
      (fun req rem => le_trans (readFullG_le grain req rem) (Nat.min_le_left _ _))
      (content.length + 1) content [] 0 1 0 0 0 0 0 true g.st
      (by simp) (by simp [bufCap])
  · intro buf endPos pre h
    rw [slideAmt, if_pos h]

/-- Witness for `c8_bounded_buffer`: a tiny scan and a slide whose
pre-context region would be the whole processed region. -/
theorem c8_bounded_buffer_witness :
    (Grep.Reader ⟨⟨0, 0, true, false, false, false⟩, 0, freshGrepState⟩
      (lineMatcher 97) 1 [97, 10]).2.maxBuf ≤ bufCap ∧
    (lineSuffixLen (([97, 10] : List Nat).take 2) 1 = 2 ∧ slideAmt [97, 10] 2 1 = 0) :=
  ⟨c8_bounded_buffer.1 ⟨⟨0, 0, true, false, false, false⟩, 0, freshGrepState⟩
      (lineMatcher 97) 1 [97, 10],
    ⟨by decide, c8_bounded_buffer.2.2 [97, 10] 2 1 (by decide)⟩⟩

/-! ## C4, C5, C7: per-event invariants of the scan -/

/-- The contract of the external line matcher (spec §6): a reported match
position is the index of a `'\n'` in the haystack, or the haystack length
— the unterminated final line — only when at end of text. -/
def LineMatcherOK (m : Matcher) : Prop :=
  ∀ (hay : List Nat) (bt et : Bool) (i : Nat), m hay bt et = some i →
    hay[i]? = some 10 ∨ (i = hay.length ∧ et = true)

theorem lineScan_spec (b : Nat) (et : Bool) :
    ∀ (hay : List Nat) (seen : Bool) (i : Nat), lineScan b et hay seen = some i →
      hay[i]? = some 10 ∨ (i = hay.length ∧ et = true) := by
  intro hay
  induction hay with
  | nil =>
    intro seen i h
    simp only [lineScan] at h
    by_cases hc : (et && seen) = true
    · rw [if_pos hc] at h
      injection h with h
      right
      simp at hc
      simp [← h, hc.1]
    · rw [if_neg hc] at h
      exact Option.noConfusion h
  | cons c rest ih =>
    intro seen i h
    simp only [lineScan] at h
    by_cases hc : c = 10
    · rw [if_pos hc] at h
      by_cases hs : seen = true
      · rw [if_pos hs] at h
        injection h with h
        subst h
        left
        simp [hc]
      · rw [if_neg hs] at h
        cases hr : lineScan b et rest false with
        | none => rw [hr] at h; exact Option.noConfusion h
        | some j =>
          rw [hr] at h
          simp only [Option.map_some'] at h
          injection h with h
          subst h
          rcases ih false j hr with h1 | ⟨h1, h2⟩
          · left; simpa using h1
          · right; simp [h1, h2]
    · rw [if_neg hc] at h
      cases hr : lineScan b et rest (seen || (c == b)) with
      | none => rw [hr] at h; exact Option.noConfusion h
      | some j =>
        rw [hr] at h
        simp only [Option.map_some'] at h
        injection h with h
        subst h
        rcases ih _ j hr with h1 | ⟨h1, h2⟩
        · left; simpa using h1
        · right; simp [h1, h2]

theorem lineMatcher_ok (b : Nat) : LineMatcherOK (lineMatcher b) := by
  intro hay bt et i h
  exact lineScan_spec b et hay false i h

theorem countNL_take_split (l : List Nat) (a b : Nat) (h : a ≤ b) :
    countNL (l.take b) = countNL (l.take a) + countNL ((l.take b).drop a) := by
  conv_lhs => rw [← List.take_append_drop a (l.take b)]
  rw [countNL_append, List.take_take, min_eq_left h]

theorem countNL_content_link (content buf : List Nat) (base : Nat)
    (hbuf : (content.drop base).take buf.length = buf) (x : Nat)
    (hx : x ≤ buf.length) :
    countNL (content.take (base + x)) =
      countNL (content.take base) + countNL (buf.take x) := by
  rw [List.take_add, countNL_append]
  congr 2
  rw [← hbuf, List.take_take, min_eq_left hx]

theorem seg_getElem (l : List Nat) (e c i : Nat) (hi : c + i < e) :
    ((l.take e).drop c)[i]? = l[c + i]? := by
  rw [List.getElem?_drop, List.getElem?_take]
  rw [if_pos hi]

/-- The per-event invariant behind claims C4, C5 and C7: line numbers are
exact, `lineStart`/`lineEnd` sit on line boundaries (up to the chunk-start
corner), and matching respects the pass's scan end. -/
def EvOK (cfg : GrepCfg) (content : List Nat) (e : Ev) : Prop :=
  (needLineno cfg = true →
    e.lineno = 1 + countNL (content.take (e.base + e.lineStart))) ∧
  (e.lineStart = 0 ∨ e.buf[e.lineStart - 1]? = some 10 ∨ e.lineStart = e.csAt) ∧
  countNL ((e.buf.take (e.lineEnd - 1)).drop e.lineStart) = 0 ∧
  (e.buf[e.lineEnd - 1]? = some 10 ∨ e.lineEnd = e.buf.length) ∧
  e.endAt = scanEnd e.buf cfg.postContext (!e.final) ∧
  (e.final = false → e.m1 < e.endAt) ∧
  e.csAt ≤ e.lineStart ∧ e.lineStart ≤ e.lineEnd ∧ e.lineEnd ≤ e.endAt ∧
  e.endAt ≤ e.buf.length

theorem EvOK_mk (cfg : GrepCfg) (content : List Nat) (b : List Nat)
    (ln ls le ba ca m1v ea : Nat) (fi : Bool) (r cl mb : Nat) :
    EvOK cfg content ⟨b, ln, ls, le, ba, ca, m1v, ea, fi, r, cl, mb⟩ ↔
      ((needLineno cfg = true → ln = 1 + countNL (content.take (ba + ls))) ∧
       (ls = 0 ∨ b[ls - 1]? = some 10 ∨ ls = ca) ∧
       countNL ((b.take (le - 1)).drop ls) = 0 ∧
       (b[le - 1]? = some 10 ∨ le = b.length) ∧
       ea = scanEnd b cfg.postContext (!fi) ∧
       (fi = false → m1v < ea) ∧
       ca ≤ ls ∧ ls ≤ le ∧ le ≤ ea ∧ ea ≤ b.length) := Iff.rfl

theorem countNL_take_le (l : List Nat) (k : Nat) : countNL (l.take k) ≤ countNL l := by
  conv_rhs => rw [← List.take_append_drop k l]
  rw [countNL_append]
  omega

theorem step_evOK (cfg : GrepCfg) (m : Matcher) (content : List Nat)
    (hm : LineMatcherOK m) (buf : List Nat) (endPos : Nat) (endText : Bool)
    (base readsC maxB : Nat)
    (hbuf : (content.drop base).take buf.length = buf)
    (hend : endPos = scanEnd buf cfg.postContext (!endText))
    (hendle : endPos ≤ buf.length)
    (cs lineno : Nat) (bt : Bool) (calls1 : Nat)
    (hcs : cs < endPos) (off : Nat)
    (hmm : m ((buf.take endPos).drop cs) bt endText = some off)
    (hP1 : needLineno cfg = true → lineno = 1 + countNL (content.take (base + cs))) :
    EvOK cfg content
      ⟨buf,
        (if needLineno cfg then
          lineno + countNL ((buf.take
            ((match lastNLIdx ((buf.take (cs + off)).drop cs) with
              | none => 0 | some j => j + 1) + cs)).drop cs)
        else lineno),
        (match lastNLIdx ((buf.take (cs + off)).drop cs) with
          | none => 0 | some j => j + 1) + cs,
        min (cs + off + 1) endPos, base, cs, cs + off, endPos, endText,
        readsC, calls1, maxB⟩ ∧
    cs + 1 ≤ min (cs + off + 1) endPos ∧
    (needLineno cfg = true → min (cs + off + 1) endPos ≤ endPos →
      (if needLineno cfg then
        (if needLineno cfg then
          lineno + countNL ((buf.take
            ((match lastNLIdx ((buf.take (cs + off)).drop cs) with
              | none => 0 | some j => j + 1) + cs)).drop cs)
        else lineno) + 1
      else
        (if needLineno cfg then
          lineno + countNL ((buf.take
            ((match lastNLIdx ((buf.take (cs + off)).drop cs) with
              | none => 0 | some j => j + 1) + cs)).drop cs)
        else lineno)) =
        1 + countNL (content.take (base + min (cs + off + 1) endPos)) ∨
      (endText = true ∧ min (cs + off + 1) endPos = endPos)) := by
  have htl : (buf.take endPos).length = endPos := by
    rw [List.length_take]; omega
  have hhay : ((buf.take endPos).drop cs).length = endPos - cs := by
    rw [List.length_drop, htl]
  -- the two matcher outcomes: a newline-terminated line, or the final
  -- unterminated fragment at end of text
  have hcases := hm _ _ _ _ hmm
  have hm1cases : (cs + off < endPos ∧ buf[cs + off]? = some 10) ∨
      (cs + off = endPos ∧ endText = true ∧ endPos = buf.length) := by
    rcases hcases with hnl | ⟨hoff, het⟩
    · left
      have hofflt : off < ((buf.take endPos).drop cs).length := by
        by_contra hge
        rw [List.getElem?_eq_none (by omega)] at hnl
        exact Option.noConfusion hnl
      rw [hhay] at hofflt
      have hlt : cs + off < endPos := by omega
      exact ⟨hlt, by rw [← seg_getElem buf endPos cs off hlt]; exact hnl⟩
    · right
      rw [hhay] at hoff
      have hbl : endPos = buf.length := by
        rw [hend, het]
        simp [scanEnd]
      exact ⟨by omega, het, hbl⟩
  have hm1le : cs + off ≤ endPos := by
    rcases hm1cases with ⟨h, _⟩ | ⟨h, _⟩ <;> omega
  have hm1len : cs + off ≤ buf.length := by omega
  have hseglen : ((buf.take (cs + off)).drop cs).length = off := by
    rw [List.length_drop, List.length_take]
    omega
  -- the backward scan for the line start
  have hls : ∃ ls, ((match lastNLIdx ((buf.take (cs + off)).drop cs) with
        | none => 0 | some j => j + 1) + cs) = ls ∧
      cs ≤ ls ∧ ls ≤ cs + off ∧
      (ls = cs ∨ buf[ls - 1]? = some 10) ∧
      countNL ((buf.take (cs + off)).drop ls) = 0 := by
    cases hlast : lastNLIdx ((buf.take (cs + off)).drop cs) with
    | none =>
      refine ⟨cs, by simp, le_refl cs, by omega, Or.inl rfl, ?_⟩
      exact (lastNLIdx_eq_none _).mp hlast
    | some j =>
      obtain ⟨hjlt, hj10, hjafter⟩ := lastNLIdx_spec _ _ hlast
      rw [hseglen] at hjlt
      refine ⟨j + 1 + cs, by simp, by omega, by omega, Or.inr ?_, ?_⟩
      · rw [show j + 1 + cs - 1 = cs + j from by omega]
        rw [← seg_getElem buf (cs + off) cs j (by omega)]
        exact hj10
      · rw [List.drop_drop] at hjafter
        rw [show j + 1 + cs = cs + (j + 1) from by omega]
        exact hjafter
  obtain ⟨ls, hlseq, hcsls, hlsm1, hlsbd, hlszero⟩ := hls
  rw [hlseq]
  rw [EvOK_mk]
  have hlslen : ls ≤ buf.length := by omega
  -- the line number printed with this match
  have hlineno1 : needLineno cfg = true →
      (if needLineno cfg = true then
        lineno + countNL ((buf.take ls).drop cs) else lineno) =
      1 + countNL (content.take (base + ls)) := by
    intro hN
    rw [if_pos hN, hP1 hN]
    have e1 := countNL_content_link content buf base hbuf ls hlslen
    have e2 := countNL_content_link content buf base hbuf cs (by omega)
    have e3 := countNL_take_split buf cs ls hcsls
    omega
  rcases hm1cases with ⟨hm1lt, hb10⟩ | ⟨hm1eq, het, hblen⟩
  · -- a newline-terminated matched line inside the scan region
    have hmin : min (cs + off + 1) endPos = cs + off + 1 :=
      min_eq_left (by omega)
    rw [hmin]
    have hterm : countNL ((buf.take (cs + off + 1)).drop ls) = 1 := by
      have htk : buf.take (cs + off + 1) = buf.take (cs + off) ++ [10] := by
        rw [List.take_succ, hb10]
        rfl
      rw [htk, List.drop_append_eq_append_drop]
      rw [countNL_append]
      have h1 : ls - (buf.take (cs + off)).length = 0 := by
        rw [List.length_take]
        omega
      rw [h1, hlszero]
      simp [countNL]
    refine ⟨⟨hlineno1, ?_, ?_, ?_, hend, fun _ => by omega, by omega, by omega,
        by omega, hendle⟩, by omega, ?_⟩
    · rcases hlsbd with h | h
      · exact Or.inr (Or.inr h)
      · exact Or.inr (Or.inl h)
    · rw [show cs + off + 1 - 1 = cs + off from by omega]
      exact hlszero
    · rw [show cs + off + 1 - 1 = cs + off from by omega]
      exact Or.inl hb10
    · intro hN _
      left
      simp only [if_pos hN]
      have hln1 := hlineno1 hN
      rw [if_pos hN] at hln1
      have e1 := countNL_content_link content buf base hbuf (cs + off + 1) (by omega)
      have e2 := countNL_content_link content buf base hbuf ls hlslen
      have e3 := countNL_take_split buf ls (cs + off + 1) (by omega)
      omega
  · -- the unterminated final line at end of text
    have hmin : min (cs + off + 1) endPos = endPos :=
      min_eq_right (by omega)
    rw [hmin]
    have hint2 : countNL ((buf.take (endPos - 1)).drop ls) = 0 := by
      have hpr : (buf.take (endPos - 1)).drop ls =
          ((buf.take (cs + off)).drop ls).take (endPos - 1 - ls) := by
        rw [List.drop_take, List.drop_take]
        rw [show cs + off = endPos from by omega]
        rw [List.take_take, min_eq_left (by omega)]
      rw [hpr]
      have := countNL_take_le ((buf.take (cs + off)).drop ls) (endPos - 1 - ls)
      omega
    refine ⟨⟨hlineno1, ?_, hint2, Or.inr (by omega), hend, fun hf => by
        rw [hf] at het; exact absurd het (by simp), by omega, by omega,
        by omega, hendle⟩, by omega, ?_⟩
    · rcases hlsbd with h | h
      · exact Or.inr (Or.inr h)
      · exact Or.inr (Or.inl h)
    · intro hN _
      right
      exact ⟨het, rfl⟩

theorem innerLoop_events (cfg : GrepCfg) (limit : Nat) (m : Matcher)
    (content : List Nat) (hm : LineMatcherOK m) (buf : List Nat)
    (endPos : Nat) (endText : Bool) (base readsC maxB : Nat)
    (hbuf : (content.drop base).take buf.length = buf)
    (hend : endPos = scanEnd buf cfg.postContext (!endText))
    (hendle : endPos ≤ buf.length) :
    ∀ (fuel cs lineno : Nat) (bt : Bool) (count : Nat) (st : GrepState) (calls : Nat),
      (needLineno cfg = true → cs < endPos →
        lineno = 1 + countNL (content.take (base + cs))) →
      (needLineno cfg = true → endText = false → cs ≤ endPos →
        lineno = 1 + countNL (content.take (base + cs))) →
      (∀ e ∈ (innerLoop cfg limit m buf endPos endText base readsC maxB fuel cs
          lineno bt count st calls).evs, EvOK cfg content e) ∧
      (needLineno cfg = true → endText = false →
        (innerLoop cfg limit m buf endPos endText base readsC maxB fuel cs
            lineno bt count st calls).cs ≤ endPos →
        (innerLoop cfg limit m buf endPos endText base readsC maxB fuel cs
            lineno bt count st calls).lineno =
          1 + countNL (content.take (base +
            (innerLoop cfg limit m buf endPos endText base readsC maxB fuel cs
              lineno bt count st calls).cs))) := by
  intro fuel
  induction fuel with
  | zero =>
    intro cs lineno bt count st calls hP1 hP2
    simp only [innerLoop]
    exact ⟨by simp, fun hN hET hle => hP2 hN hET hle⟩
  | succ fuel ih =>
    intro cs lineno bt count st calls hP1 hP2
    by_cases hcsp : cs < endPos
    · cases hmm : m ((buf.take endPos).drop cs) bt endText with
      | none =>
        simp only [innerLoop, if_pos hcsp, hmm]
        exact ⟨by simp, fun hN hET hle => hP2 hN hET hle⟩
      | some off =>
        simp only [innerLoop, if_pos hcsp, hmm]
        by_cases hlim : 0 < limit ∧ limit ≤ st.nMatches
        · rw [if_pos hlim]
          exact ⟨by simp, fun hN hET hle => hP2 hN hET hle⟩
        · rw [if_neg hlim]
          by_cases hfl : cfg.flagL
          · rw [if_pos hfl]
            exact ⟨by simp, fun hN hET hle => hP2 hN hET hle⟩
          · rw [if_neg hfl]
            have step := step_evOK cfg m content hm buf endPos endText base readsC
              maxB hbuf hend hendle cs lineno bt (calls + 1) hcsp off hmm
              (fun hN => hP1 hN hcsp)
            obtain ⟨hEv, hprog, hcont⟩ := step
            have hP1' : needLineno cfg = true →
                min (cs + off + 1) endPos < endPos →
                (if needLineno cfg then
                  (if needLineno cfg then
                    lineno + countNL ((buf.take
                      ((match lastNLIdx ((buf.take (cs + off)).drop cs) with
                        | none => 0 | some j => j + 1) + cs)).drop cs)
                  else lineno) + 1
                else
                  (if needLineno cfg then
                    lineno + countNL ((buf.take
                      ((match lastNLIdx ((buf.take (cs + off)).drop cs) with
                        | none => 0 | some j => j + 1) + cs)).drop cs)
                  else lineno)) =
                1 + countNL (content.take (base + min (cs + off + 1) endPos)) := by
              intro hN hlt
              rcases hcont hN (Nat.min_le_right _ _) with h | ⟨_, heq⟩
              · exact h
              · omega
            have hP2' : needLineno cfg = true → endText = false →
                min (cs + off + 1) endPos ≤ endPos →
                (if needLineno cfg then
                  (if needLineno cfg then
                    lineno + countNL ((buf.take
                      ((match lastNLIdx ((buf.take (cs + off)).drop cs) with
                        | none => 0 | some j => j + 1) + cs)).drop cs)
                  else lineno) + 1
                else
                  (if needLineno cfg then
                    lineno + countNL ((buf.take
                      ((match lastNLIdx ((buf.take (cs + off)).drop cs) with
                        | none => 0 | some j => j + 1) + cs)).drop cs)
                  else lineno)) =
                1 + countNL (content.take (base + min (cs + off + 1) endPos)) := by
              intro hN hET _
              rcases hcont hN (Nat.min_le_right _ _) with h | ⟨hET', _⟩
              · exact h
              · rw [hET] at hET'
                exact Bool.noConfusion hET'
            have ihr := ih (min (cs + off + 1) endPos) _ false
              (if cfg.flagC then count + 1 else count)
              ⟨true, st.nMatches + 1, st.limited⟩ (calls + 1) hP1' hP2'
            refine ⟨?_, ihr.2⟩
            intro e he
            rcases List.mem_cons.mp he with heq | hmem
            · rw [heq]
              exact hEv
            · exact ihr.1 e hmem
    · simp only [innerLoop, if_neg hcsp]
      exact ⟨by simp, fun hN hET hle => hP2 hN hET hle⟩

theorem scanEnd_le (buf : List Nat) (post : Nat) (errNil : Bool) :
    scanEnd buf post errNil ≤ buf.length := by
  rw [scanEnd]
  by_cases he : errNil = true
  · rw [if_pos he]
    show (if lineSuffixLen buf (post + 1) < buf.length then
      buf.length - lineSuffixLen buf (post + 1) else buf.length) ≤ buf.length
    by_cases h : lineSuffixLen buf (post + 1) < buf.length
    · rw [if_pos h]
      omega
    · rw [if_neg h]
  · rw [if_neg he]

theorem outerLoop_events (cfg : GrepCfg) (limit : Nat) (m : Matcher)
    (content : List Nat) (hm : LineMatcherOK m) (rf : Nat → Nat → Nat)
    (cap : Nat) (hrf : ∀ req rem, rf req rem ≤ rem) :
    ∀ (fuel : Nat) (src buf : List Nat) (cs lineno count base reads calls maxB : Nat)
      (bt : Bool) (st : GrepState),
      src = content.drop (base + buf.length) →
      (content.drop base).take buf.length = buf →
      (needLineno cfg = true → lineno = 1 + countNL (content.take (base + cs))) →
      ∀ e ∈ (outerLoop cfg limit m rf cap fuel src buf cs lineno count base reads
        calls maxB bt st).evs, EvOK cfg content e := by
  intro fuel
  induction fuel with
  | zero =>
    intro src buf cs lineno count base reads calls maxB bt st hsrc hbuf hline
    simp [outerLoop]
  | succ fuel ih =>
    intro src buf cs lineno count base reads calls maxB bt st hsrc hbuf hline
    simp only [outerLoop]
    set n := rf (cap - buf.length) src.length with hn
    have hnle : n ≤ src.length := hrf _ _
    set buf1 := buf ++ src.take n with hbuf1
    have hlen1 : buf1.length = buf.length + n := by
      rw [hbuf1, List.length_append, List.length_take, min_eq_left hnle]
    have hlink1 : (content.drop base).take buf1.length = buf1 := by
      rw [hlen1, hbuf1, List.take_add, hbuf]
      congr 1
      rw [List.drop_drop, ← hsrc]
    set endPos := scanEnd buf1 cfg.postContext (n == cap - buf.length) with hend
    have hendle : endPos ≤ buf1.length := scanEnd_le _ _ _
    set maxB1 := max maxB buf1.length with hmb1
    set r := innerLoop cfg limit m buf1 endPos (!(n == cap - buf.length)) base
      (reads + 1) maxB1 (endPos + 1) cs lineno bt count st calls with hr
    have hinner := innerLoop_events cfg limit m content hm buf1 endPos
      (!(n == cap - buf.length)) base (reads + 1) maxB1 hlink1
      (by rw [Bool.not_not]) hendle (endPos + 1) cs lineno bt count st calls
      (fun hN _ => hline hN) (fun hN _ _ => hline hN)
    rw [← hr] at hinner
    obtain ⟨hevsOK, hD⟩ := hinner
    by_cases habo : r.aborted
    · rw [if_pos habo]
      exact hevsOK
    · rw [if_neg habo]
      by_cases hpan : (needLineno cfg && (n == cap - buf.length) &&
          decide (endPos < r.cs)) = true
      · rw [if_pos hpan]
        exact hevsOK
      · rw [if_neg hpan]
        by_cases hcont : ((n == cap - buf.length) && !(n == 0)) = true
        · rw [if_pos hcont]
          set d := slideAmt buf1 endPos cfg.preContext with hd
          have hdle : d ≤ endPos := by
            rw [hd, slideAmt]
            by_cases hq : lineSuffixLen (buf1.take endPos) cfg.preContext = endPos
            · rw [if_pos hq]; omega
            · rw [if_neg hq]
              have := lineSuffixLen_le (buf1.take endPos) cfg.preContext
              rw [List.length_take] at this
              omega
          have herr : (n == cap - buf.length) = true := by
            rw [Bool.and_eq_true] at hcont
            exact hcont.1
          intro e he
          simp only [] at he
          rcases List.mem_append.mp he with hmem | hmem
          · exact hevsOK e hmem
          · refine ih (src.drop n) (buf1.drop (endPos - d)) d _ r.count
              (base + (endPos - d)) (reads + 1) r.calls maxB1 r.bt r.st ?_ ?_ ?_ e hmem
            · -- the source still mirrors the stream at the new base
              rw [List.length_drop]
              rw [show base + (endPos - d) + (buf1.length - (endPos - d)) =
                base + buf1.length from by omega]
              rw [hsrc, List.drop_drop]
              congr 1
              omega
            · -- the slid buffer still mirrors the stream
              rw [List.length_drop]
              conv_rhs => rw [← hlink1]
              rw [List.drop_take, List.drop_drop]
            · -- the line counter matches the new base and chunk start
              intro hN
              have hrcs : r.cs ≤ endPos := by
                by_contra hgt
                push_neg at hgt
                apply hpan
                rw [hN, herr]
                simp [hgt]
              have hrl := hD hN (by rw [herr]; rfl) hrcs
              rw [show (needLineno cfg && (n == cap - buf.length)) = true from by
                simp [hN, herr]]
              rw [if_pos rfl]
              have e1 := countNL_content_link content buf1 base hlink1 endPos hendle
              have e2 := countNL_content_link content buf1 base hlink1 r.cs
                (le_trans hrcs hendle)
              have e3 := countNL_take_split buf1 r.cs endPos hrcs
              rw [show base + (endPos - d) + d = base + endPos from by omega]
              omega
        · rw [if_neg hcont]
          exact hevsOK

theorem reader_events_ok (g : Grep) (m : Matcher) (grain : Nat)
    (content : List Nat) (hm : LineMatcherOK m) :
    ∀ e ∈ (Grep.Reader g m grain content).2.evs, EvOK g.cfg content e := by
  intro e he
  refine outerLoop_events g.cfg g.limit m content hm (readFullG grain) bufCap
    (fun req rem => le_trans (readFullG_le grain req rem) (Nat.min_le_right _ _))
    (content.length + 1) content [] 0 1 0 0 0 0 0 true g.st (by simp) (by simp)
    (fun _ => by simp [countNL]) e ?_
  exact he

/-- C5: with line numbers tracked (`g.N || g.HTML`), every reported match
carries the exact line number of its line in the stream — one plus the
number of newline bytes before the line's global start — so for any two
reported matches the difference of their line numbers is exactly the
number of newline bytes between their line starts: line numbers stay
exact across chunk boundaries. -/
theorem c5_line_numbers (g : Grep) (m : Matcher) (grain : Nat)
    (content : List Nat) (hm : LineMatcherOK m)
    (hN : needLineno g.cfg = true) :
    (∀ e ∈ (Grep.Reader g m grain content).2.evs,
      e.lineno = 1 + countNL (content.take (e.base + e.lineStart))) ∧
    (∀ e1 ∈ (Grep.Reader g m grain content).2.evs,
      ∀ e2 ∈ (Grep.Reader g m grain content).2.evs,
      e1.base + e1.lineStart ≤ e2.base + e2.lineStart →
      e2.lineno = e1.lineno +
        countNL ((content.take (e2.base + e2.lineStart)).drop
          (e1.base + e1.lineStart))) := by
  have hok := reader_events_ok g m grain content hm
  constructor
  · intro e he
    exact (hok e he).1 hN
  · intro e1 h1 e2 h2 hle
    have q1 := (hok e1 h1).1 hN
    have q2 := (hok e2 h2).1 hN
    have := countNL_take_split content (e1.base + e1.lineStart)
      (e2.base + e2.lineStart) hle
    omega

/-- Witness for `c5_line_numbers`: three lines, two matches, line
numbers 1 and 3. -/
theorem c5_line_numbers_witness :
    LineMatcherOK (lineMatcher 97) ∧
    needLineno ⟨0, 0, true, false, false, false⟩ = true ∧
    (∀ e ∈ (Grep.Reader ⟨⟨0, 0, true, false, false, false⟩, 0, freshGrepState⟩
        (lineMatcher 97) 1 [97, 10, 98, 10, 97, 10]).2.evs,
      e.lineno = 1 + countNL ([97, 10, 98, 10, 97, 10].take (e.base + e.lineStart))) ∧
    ((Grep.Reader ⟨⟨0, 0, true, false, false, false⟩, 0, freshGrepState⟩
        (lineMatcher 97) 1 [97, 10, 98, 10, 97, 10]).2.evs.map Ev.lineno = [1, 3]) :=
  ⟨lineMatcher_ok 97, rfl,
    (c5_line_numbers ⟨⟨0, 0, true, false, false, false⟩, 0, freshGrepState⟩
      (lineMatcher 97) 1 [97, 10, 98, 10, 97, 10] (lineMatcher_ok 97) rfl).1,
    by decide⟩

/-- C4 amended: on every non-final pass, matching stops at the safe end —
the buffer length minus the trailing `PostContext + 1` complete lines
(with the trailing fragment) — unless that trailing region is the whole
buffer, in which case the whole buffer is scanned (`if d < len(buf)`,
match.go line 97); no match is reported at or past the pass's scan end on
a non-final chunk, and the matched line ends at or before it. -/
theorem c4_safe_end (g : Grep) (m : Matcher) (grain : Nat)
    (content : List Nat) (hm : LineMatcherOK m) :
    ∀ e ∈ (Grep.Reader g m grain content).2.evs,
      (e.endAt = scanEnd e.buf g.cfg.postContext (!e.final) ∧
        e.lineEnd ≤ e.endAt ∧ e.endAt ≤ e.buf.length) ∧
      (e.final = false →
        e.endAt = (if lineSuffixLen e.buf (g.cfg.postContext + 1) < e.buf.length
          then e.buf.length - lineSuffixLen e.buf (g.cfg.postContext + 1)
          else e.buf.length) ∧
        e.m1 < e.endAt) := by
  intro e he
  obtain ⟨_, _, _, _, h5, h6, _, _, h9, h10⟩ :=
    reader_events_ok g m grain content hm e he
  refine ⟨⟨h5, h9, h10⟩, fun hf => ⟨?_, h6 hf⟩⟩
  rw [h5, hf]
  rfl

/-- Witness for `c4_safe_end` at a small two-line scan (a tiny stream is
read in one final pass, so the non-final clause is exercised vacuously
and the scan-end characterization concretely). -/
theorem c4_safe_end_witness :
    LineMatcherOK (lineMatcher 97) ∧
    (∀ e ∈ (Grep.Reader ⟨⟨0, 0, false, false, false, false⟩, 0, freshGrepState⟩
        (lineMatcher 97) 1 [97, 10, 98, 10]).2.evs,
      (e.endAt = scanEnd e.buf 0 (!e.final) ∧
        e.lineEnd ≤ e.endAt ∧ e.endAt ≤ e.buf.length) ∧
      (e.final = false →
        e.endAt = (if lineSuffixLen e.buf (0 + 1) < e.buf.length
          then e.buf.length - lineSuffixLen e.buf (0 + 1)
          else e.buf.length) ∧
        e.m1 < e.endAt)) ∧
    ((Grep.Reader ⟨⟨0, 0, false, false, false, false⟩, 0, freshGrepState⟩
        (lineMatcher 97) 1 [97, 10, 98, 10]).2.evs.map
          (fun e => (e.m1, e.endAt, e.final)) = [(1, 4, true)]) :=
  ⟨lineMatcher_ok 97,
    c4_safe_end ⟨⟨0, 0, false, false, false, false⟩, 0, freshGrepState⟩
      (lineMatcher 97) 1 [97, 10, 98, 10] (lineMatcher_ok 97),
    by decide⟩

/-- C7 amended: for each match, `lineStart` is found by scanning backward
from the match to the nearest newline, bounded by the chunk start (so it
is the buffer start, right after a newline, or the chunk start itself —
the last case occurring when a line longer than the buffer forced the
slide to discard the line's head); `lineEnd` is the matched line's
newline (no interior newline precedes it) or the buffer end; a final line
lacking a trailing newline is still reported, with `lineEnd` equal to the
buffer end, and context extraction does not fail. -/
theorem c7_line_span (g : Grep) (m : Matcher) (grain : Nat)
    (content : List Nat) (hm : LineMatcherOK m) :
    (∀ e ∈ (Grep.Reader g m grain content).2.evs,
      (e.lineStart = 0 ∨ e.buf[e.lineStart - 1]? = some 10 ∨ e.lineStart = e.csAt) ∧
      countNL ((e.buf.take (e.lineEnd - 1)).drop e.lineStart) = 0 ∧
      (e.buf[e.lineEnd - 1]? = some 10 ∨ e.lineEnd = e.buf.length) ∧
      e.csAt ≤ e.lineStart ∧ e.lineStart ≤ e.lineEnd ∧ e.lineEnd ≤ e.buf.length) := by
  intro e he
  obtain ⟨_, h2, h3, h4, _, _, h7, h8, h9, h10⟩ :=
    reader_events_ok g m grain content hm e he
  exact ⟨h2, h3, h4, h7, h8, by omega⟩

/-- Witness for `c7_line_span`, together with the unterminated final line
example: content `"b\\naQ"` (no trailing newline) still reports the match
on its last line, `lineEnd` is the buffer end, and `LineContext` extracts
the line without error. -/
theorem c7_line_span_witness :
    LineMatcherOK (lineMatcher 97) ∧
    (∀ e ∈ (Grep.Reader ⟨⟨0, 0, false, false, false, false⟩, 0, freshGrepState⟩
        (lineMatcher 97) 1 [98, 10, 97, 81]).2.evs,
      (e.lineStart = 0 ∨ e.buf[e.lineStart - 1]? = some 10 ∨ e.lineStart = e.csAt) ∧
      countNL ((e.buf.take (e.lineEnd - 1)).drop e.lineStart) = 0 ∧
      (e.buf[e.lineEnd - 1]? = some 10 ∨ e.lineEnd = e.buf.length) ∧
      e.csAt ≤ e.lineStart ∧ e.lineStart ≤ e.lineEnd ∧ e.lineEnd ≤ e.buf.length) ∧
    ((Grep.Reader ⟨⟨0, 0, false, false, false, false⟩, 0, freshGrepState⟩
        (lineMatcher 97) 1 [98, 10, 97, 81]).2.evs.map
          (fun e => (e.lineStart, e.lineEnd, e.buf.length)) = [(2, 4, 4)]) ∧
    LineContext 1 1 [98, 10, 97, 81] 2 4 = ([[98]], [97, 81], []) :=
  ⟨lineMatcher_ok 97,
    c7_line_span ⟨⟨0, 0, false, false, false, false⟩, 0, freshGrepState⟩
      (lineMatcher 97) 1 [98, 10, 97, 81] (lineMatcher_ok 97),
    by decide, by decide⟩

end Sandd

namespace Sandd

theorem innerLoop_limit_sim (cfg : GrepCfg) (L : Nat) (m : Matcher)
    (buf : List Nat) (endPos : Nat) (endText : Bool) (base readsC maxB : Nat)
    (hL : 0 < L) (hfl : cfg.flagL = false) :
    ∀ (fuel cs lineno : Nat) (bt : Bool) (count : Nat) (st : GrepState) (calls : Nat),
      (innerLoop cfg 0 m buf endPos endText base readsC maxB fuel cs lineno bt
        count st calls).aborted = false ∧
      (innerLoop cfg 0 m buf endPos endText base readsC maxB fuel cs lineno bt
        count st calls).st.nMatches = st.nMatches +
        (innerLoop cfg 0 m buf endPos endText base readsC maxB fuel cs lineno bt
          count st calls).evs.length ∧
      (innerLoop cfg 0 m buf endPos endText base readsC maxB fuel cs lineno bt
        count st calls).st.limited = st.limited ∧
      (innerLoop cfg 0 m buf endPos endText base readsC maxB fuel cs lineno bt
        count st calls).count = count + (if cfg.flagC then
        (innerLoop cfg 0 m buf endPos endText base readsC maxB fuel cs lineno bt
          count st calls).evs.length else 0) ∧
      (∀ e ∈ (innerLoop cfg 0 m buf endPos endText base readsC maxB fuel cs lineno
        bt count st calls).evs, e.readsAt = readsC ∧ e.maxBufAt = maxB) ∧
      ((innerLoop cfg 0 m buf endPos endText base readsC maxB fuel cs lineno bt
          count st calls).evs.length ≤ L - st.nMatches →
        innerLoop cfg L m buf endPos endText base readsC maxB fuel cs lineno bt
          count st calls =
        innerLoop cfg 0 m buf endPos endText base readsC maxB fuel cs lineno bt
          count st calls) ∧
      (L - st.nMatches < (innerLoop cfg 0 m buf endPos endText base readsC maxB
          fuel cs lineno bt count st calls).evs.length →
        (innerLoop cfg L m buf endPos endText base readsC maxB fuel cs lineno bt
          count st calls).aborted = true ∧
        (innerLoop cfg L m buf endPos endText base readsC maxB fuel cs lineno bt
          count st calls).evs =
          (innerLoop cfg 0 m buf endPos endText base readsC maxB fuel cs lineno bt
            count st calls).evs.take (L - st.nMatches) ∧
        (innerLoop cfg L m buf endPos endText base readsC maxB fuel cs lineno bt
          count st calls).st =
          ⟨true, st.nMatches + (L - st.nMatches), true⟩ ∧
        (innerLoop cfg L m buf endPos endText base readsC maxB fuel cs lineno bt
          count st calls).count = count + (if cfg.flagC then L - st.nMatches else 0) ∧
        (∃ ev, (innerLoop cfg 0 m buf endPos endText base readsC maxB fuel cs
            lineno bt count st calls).evs[L - st.nMatches]? = some ev ∧
          (innerLoop cfg L m buf endPos endText base readsC maxB fuel cs lineno bt
            count st calls).calls = ev.callsAt)) := by
  intro fuel
  induction fuel with
  | zero =>
    intro cs lineno bt count st calls
    simp [innerLoop]
  | succ fuel ih =>
    intro cs lineno bt count st calls
    by_cases hcsp : cs < endPos
    · cases hmm : m ((buf.take endPos).drop cs) bt endText with
      | none =>
        simp only [innerLoop, if_pos hcsp, hmm]
        simp
      | some off =>
        simp only [innerLoop, if_pos hcsp, hmm]
        have hlim0 : ¬ (0 < 0 ∧ 0 ≤ st.nMatches) := by omega
        rw [if_neg hlim0, if_neg (by rw [hfl]; simp : ¬ cfg.flagL = true)]
        by_cases hhit : L ≤ st.nMatches
        · -- the limited run hits the ceiling at this match
          rw [if_pos (by omega : 0 < L ∧ L ≤ st.nMatches)]
          have hk : L - st.nMatches = 0 := by omega
          obtain ⟨ih0, ih1, ih2, ih3, ih4, _, _⟩ :=
            ih (min (cs + off + 1) endPos) _ false
              (if cfg.flagC then count + 1 else count)
              ⟨true, st.nMatches + 1, st.limited⟩ (calls + 1)
          refine ⟨ih0, ?_, ih2, ?_, ?_, ?_, ?_⟩
          · simp only [List.length_cons] at ih1 ⊢
            simp only [ih1]
            omega
          · simp only [List.length_cons] at ih3 ⊢
            rw [ih3]
            by_cases hC : cfg.flagC <;> simp [hC] <;> omega
          · intro e he
            rcases List.mem_cons.mp he with heq | hmem
            · rw [heq]
              exact ⟨rfl, rfl⟩
            · exact ih4 e hmem
          · intro hle
            rw [hk] at hle
            simp at hle
          · intro _
            rw [hk]
            refine ⟨rfl, by simp, by simp, ?_, ?_⟩
            · cases hC : cfg.flagC <;> simp
            · simp only [List.getElem?_cons_zero]
              exact ⟨_, rfl, rfl⟩
        · -- below the ceiling: both runs report this match
          rw [if_neg (by omega : ¬ (0 < L ∧ L ≤ st.nMatches)),
            if_neg (by rw [hfl]; simp : ¬ cfg.flagL = true)]
          obtain ⟨ih0, ih1, ih2, ih3, ih4, ihA, ihB⟩ :=
            ih (min (cs + off + 1) endPos) _ false
              (if cfg.flagC then count + 1 else count)
              ⟨true, st.nMatches + 1, st.limited⟩ (calls + 1)
          refine ⟨ih0, ?_, ih2, ?_, ?_, ?_, ?_⟩
          · simp only [List.length_cons]
            simp only [ih1]
            omega
          · simp only [List.length_cons]
            rw [ih3]
            by_cases hC : cfg.flagC <;> simp [hC] <;> omega
          · intro e he
            rcases List.mem_cons.mp he with heq | hmem
            · rw [heq]
              exact ⟨rfl, rfl⟩
            · exact ih4 e hmem
          · intro hle
            simp only [List.length_cons] at hle
            have : (innerLoop cfg 0 m buf endPos endText base readsC maxB fuel
                (min (cs + off + 1) endPos)
                (if needLineno cfg = true then
                  (if needLineno cfg = true then
                    lineno + countNL ((buf.take
                      ((match lastNLIdx ((buf.take (cs + off)).drop cs) with
                        | none => 0 | some j => j + 1) + cs)).drop cs)
                  else lineno) + 1
                else
                  (if needLineno cfg = true then
                    lineno + countNL ((buf.take
                      ((match lastNLIdx ((buf.take (cs + off)).drop cs) with
                        | none => 0 | some j => j + 1) + cs)).drop cs)
                  else lineno)) false
                (if cfg.flagC then count + 1 else count)
                ⟨true, st.nMatches + 1, st.limited⟩ (calls + 1)).evs.length ≤
                L - (st.nMatches + 1) := by omega
            rw [ihA this]
          · intro hlt
            simp only [List.length_cons] at hlt
            have hlt' : L - (st.nMatches + 1) <
                (innerLoop cfg 0 m buf endPos endText base readsC maxB fuel
                  (min (cs + off + 1) endPos)
                  (if needLineno cfg = true then
                    (if needLineno cfg = true then
                      lineno + countNL ((buf.take
                        ((match lastNLIdx ((buf.take (cs + off)).drop cs) with
                          | none => 0 | some j => j + 1) + cs)).drop cs)
                    else lineno) + 1
                  else
                    (if needLineno cfg = true then
                      lineno + countNL ((buf.take
                        ((match lastNLIdx ((buf.take (cs + off)).drop cs) with
                          | none => 0 | some j => j + 1) + cs)).drop cs)
                    else lineno)) false
                  (if cfg.flagC then count + 1 else count)
                  ⟨true, st.nMatches + 1, st.limited⟩ (calls + 1)).evs.length := by
              omega
            obtain ⟨hB1, hB2, hB3, hB4, ev, hev, hevc⟩ := ihB hlt'
            have hkpos : L - st.nMatches = (L - (st.nMatches + 1)) + 1 := by omega
            refine ⟨hB1, ?_, ?_, ?_, ?_⟩
            · rw [hB2, hkpos]
              rfl
            · rw [hB3]
              have : st.nMatches + 1 + (L - (st.nMatches + 1)) =
                st.nMatches + (L - st.nMatches) := by omega
              rw [this]
            · rw [hB4]
              by_cases hC : cfg.flagC <;> simp [hC] <;> omega
            · refine ⟨ev, ?_, hevc⟩
              rw [hkpos]
              simpa using hev
    · simp only [innerLoop, if_neg hcsp]
      simp

end Sandd

namespace Sandd

theorem outerLoop_limit_sim (cfg : GrepCfg) (L : Nat) (m : Matcher)
    (rf : Nat → Nat → Nat) (cap : Nat) (hL : 0 < L) (hfl : cfg.flagL = false) :
    ∀ (fuel : Nat) (src buf : List Nat) (cs lineno count base reads calls maxB : Nat)
      (bt : Bool) (st : GrepState),
      ((outerLoop cfg 0 m rf cap fuel src buf cs lineno count base reads calls
          maxB bt st).evs.length ≤ L - st.nMatches →
        outerLoop cfg L m rf cap fuel src buf cs lineno count base reads calls
          maxB bt st =
        outerLoop cfg 0 m rf cap fuel src buf cs lineno count base reads calls
          maxB bt st) ∧
      (L - st.nMatches < (outerLoop cfg 0 m rf cap fuel src buf cs lineno count
          base reads calls maxB bt st).evs.length →
        (outerLoop cfg L m rf cap fuel src buf cs lineno count base reads calls
          maxB bt st).evs =
          (outerLoop cfg 0 m rf cap fuel src buf cs lineno count base reads calls
            maxB bt st).evs.take (L - st.nMatches) ∧
        (outerLoop cfg L m rf cap fuel src buf cs lineno count base reads calls
          maxB bt st).st = ⟨true, st.nMatches + (L - st.nMatches), true⟩ ∧
        (outerLoop cfg L m rf cap fuel src buf cs lineno count base reads calls
          maxB bt st).count = count + (if cfg.flagC then L - st.nMatches else 0) ∧
        (outerLoop cfg L m rf cap fuel src buf cs lineno count base reads calls
          maxB bt st).panicked = false ∧
        (∃ ev, (outerLoop cfg 0 m rf cap fuel src buf cs lineno count base reads
            calls maxB bt st).evs[L - st.nMatches]? = some ev ∧
          (outerLoop cfg L m rf cap fuel src buf cs lineno count base reads calls
            maxB bt st).calls = ev.callsAt ∧
          (outerLoop cfg L m rf cap fuel src buf cs lineno count base reads calls
            maxB bt st).reads = ev.readsAt ∧
          (outerLoop cfg L m rf cap fuel src buf cs lineno count base reads calls
            maxB bt st).maxBuf = ev.maxBufAt)) := by
  intro fuel
  induction fuel with
  | zero =>
    intro src buf cs lineno count base reads calls maxB bt st
    simp [outerLoop]
  | succ fuel ih =>
    intro src buf cs lineno count base reads calls maxB bt st
    simp only [outerLoop]
    set n := rf (cap - buf.length) src.length with hn
    set buf1 := buf ++ src.take n with hbuf1
    set endPos := scanEnd buf1 cfg.postContext (n == cap - buf.length) with hend
    set maxB1 := max maxB buf1.length with hmb1
    set r0 := innerLoop cfg 0 m buf1 endPos (!(n == cap - buf.length)) base
      (reads + 1) maxB1 (endPos + 1) cs lineno bt count st calls with hr0
    set rL := innerLoop cfg L m buf1 endPos (!(n == cap - buf.length)) base
      (reads + 1) maxB1 (endPos + 1) cs lineno bt count st calls with hrL
    have hin := innerLoop_limit_sim cfg L m buf1 endPos (!(n == cap - buf.length))
      base (reads + 1) maxB1 hL hfl (endPos + 1) cs lineno bt count st calls
    rw [← hr0, ← hrL] at hin
    obtain ⟨hab0, hnm0, _, hcnt0, hrd0, hIA, hIB⟩ := hin
    have hnab : ¬ r0.aborted = true := by rw [hab0]; simp
    by_cases hA : r0.evs.length ≤ L - st.nMatches
    · have hEq : rL = r0 := hIA hA
      rw [hEq, if_neg hnab, if_neg hnab]
      by_cases hpan : (needLineno cfg && (n == cap - buf.length) &&
          decide (endPos < r0.cs)) = true
      · rw [if_pos hpan, if_pos hpan]
        refine ⟨fun _ => rfl, fun hlt => absurd hlt ?_⟩
        simp only [not_lt]
        exact hA
      · rw [if_neg hpan, if_neg hpan]
        by_cases hcont : ((n == cap - buf.length) && !(n == 0)) = true
        · rw [if_pos hcont, if_pos hcont]
          set d := slideAmt buf1 endPos cfg.preContext with hd
          obtain ⟨ihA, ihB⟩ := ih (src.drop n) (buf1.drop (endPos - d)) d
            (if needLineno cfg && (n == cap - buf.length) then
              r0.lineno + countNL ((buf1.take endPos).drop r0.cs) else r0.lineno)
            r0.count (base + (endPos - d)) (reads + 1) r0.calls maxB1 r0.bt r0.st
          set rest0 := outerLoop cfg 0 m rf cap fuel (src.drop n)
            (buf1.drop (endPos - d)) d
            (if needLineno cfg && (n == cap - buf.length) then
              r0.lineno + countNL ((buf1.take endPos).drop r0.cs) else r0.lineno)
            r0.count (base + (endPos - d)) (reads + 1) r0.calls maxB1 r0.bt r0.st
            with hrest0
          set restL := outerLoop cfg L m rf cap fuel (src.drop n)
            (buf1.drop (endPos - d)) d
            (if needLineno cfg && (n == cap - buf.length) then
              r0.lineno + countNL ((buf1.take endPos).drop r0.cs) else r0.lineno)
            r0.count (base + (endPos - d)) (reads + 1) r0.calls maxB1 r0.bt r0.st
            with hrestL
          constructor
          · intro hle
            simp only [List.length_append] at hle
            have hle' : rest0.evs.length ≤ L - r0.st.nMatches := by
              clear ihA ihB hIA hIB hrd0
              omega
            rw [ihA hle']
          · intro hlt
            simp only [List.length_append] at hlt
            have hk' : L - r0.st.nMatches < rest0.evs.length := by
              clear ihA ihB hIA hIB hrd0
              omega
            have e1 : L - st.nMatches = r0.evs.length + (L - r0.st.nMatches) := by
              clear ihA ihB hIA hIB hrd0
              omega
            have e2 : r0.st.nMatches + (L - r0.st.nMatches) =
                st.nMatches + (L - st.nMatches) := by
              clear ihA ihB hIA hIB hrd0
              omega
            have e3 : L - st.nMatches - r0.evs.length = L - r0.st.nMatches := by
              clear ihA ihB hIA hIB hrd0
              omega
            obtain ⟨hevs', hst', hcnt', hpk', ev, hev', hc', hr', hm'⟩ := ihB hk'
            refine ⟨?_, ?_, ?_, hpk', ev, ?_, hc', hr', hm'⟩
            · show r0.evs ++ restL.evs =
                (r0.evs ++ rest0.evs).take (L - st.nMatches)
              rw [hevs', e1, List.take_append]
            · show restL.st = ⟨true, st.nMatches + (L - st.nMatches), true⟩
              rw [hst', e2]
            · show restL.count = count +
                (if cfg.flagC then L - st.nMatches else 0)
              rw [hcnt', hcnt0]
              by_cases hC : cfg.flagC = true
              · simp only [if_pos hC]
                clear ihA hIA hIB hev'
                omega
              · simp only [if_neg hC]
            · show (r0.evs ++ rest0.evs)[L - st.nMatches]? = some ev
              rw [List.getElem?_append_right hA, e3]
              exact hev'
        · rw [if_neg hcont, if_neg hcont]
          refine ⟨fun _ => rfl, fun hlt => absurd hlt ?_⟩
          simp only [not_lt]
          exact hA
    · push_neg at hA
      obtain ⟨hBab, hBevs, hBst, hBcnt, ev, hev, hevc⟩ := hIB hA
      rw [if_pos hBab, if_neg hnab]
      have hmem : ev ∈ r0.evs := List.getElem?_mem hev
      obtain ⟨hevr, hevm⟩ := hrd0 ev hmem
      by_cases hpan : (needLineno cfg && (n == cap - buf.length) &&
          decide (endPos < r0.cs)) = true
      · rw [if_pos hpan]
        refine ⟨fun hle => absurd hle (by simp only [not_le]; exact hA), fun _ =>
          ⟨hBevs, hBst, hBcnt, rfl, ev, hev, hevc, hevr.symm, hevm.symm⟩⟩
      · rw [if_neg hpan]
        by_cases hcont : ((n == cap - buf.length) && !(n == 0)) = true
        · rw [if_pos hcont]
          set d := slideAmt buf1 endPos cfg.preContext with hd
          set rest0 := outerLoop cfg 0 m rf cap fuel (src.drop n)
            (buf1.drop (endPos - d)) d
            (if needLineno cfg && (n == cap - buf.length) then
              r0.lineno + countNL ((buf1.take endPos).drop r0.cs) else r0.lineno)
            r0.count (base + (endPos - d)) (reads + 1) r0.calls maxB1 r0.bt r0.st
            with hrest0
          constructor
          · intro hle
            exfalso
            simp only [List.length_append] at hle
            clear hIA hIB hev
            omega
          · intro _
            refine ⟨?_, hBst, hBcnt, rfl, ev, ?_, hevc, hevr.symm, hevm.symm⟩
            · show rL.evs = (r0.evs ++ rest0.evs).take (L - st.nMatches)
              rw [hBevs, List.take_append_of_le_length (le_of_lt hA)]
            · show (r0.evs ++ rest0.evs)[L - st.nMatches]? = some ev
              rw [List.getElem?_append, if_pos hA]
              exact hev
        · rw [if_neg hcont]
          refine ⟨fun hle => absurd hle (by simp only [not_le]; exact hA), fun _ =>
            ⟨hBevs, hBst, hBcnt, rfl, ev, hev, hevc, hevr.symm, hevm.symm⟩⟩

end Sandd

namespace Sandd

theorem innerLoop_flagL_evs (cfg : GrepCfg) (limit : Nat) (m : Matcher)
    (buf : List Nat) (endPos : Nat) (endText : Bool) (base readsC maxB : Nat)
    (hfl : cfg.flagL = true) :
    ∀ (fuel cs lineno : Nat) (bt : Bool) (count : Nat) (st : GrepState)
      (calls : Nat),
      (innerLoop cfg limit m buf endPos endText base readsC maxB fuel cs lineno
        bt count st calls).evs = [] := by
  intro fuel cs lineno bt count st calls
  match fuel with
  | 0 => simp [innerLoop]
  | fuel + 1 =>
    by_cases hcs : cs < endPos
    · cases hm : m ((buf.take endPos).drop cs) bt endText with
      | none => simp [innerLoop, if_pos hcs, hm]
      | some off =>
        simp only [innerLoop, if_pos hcs, hm]
        by_cases hlim : 0 < limit ∧ limit ≤ st.nMatches
        · rw [if_pos hlim]
        · rw [if_neg hlim, if_pos hfl]
    · simp [innerLoop, if_neg hcs]

theorem outerLoop_flagL_evs (cfg : GrepCfg) (limit : Nat) (m : Matcher)
    (rf : Nat → Nat → Nat) (cap : Nat) (hfl : cfg.flagL = true) :
    ∀ (fuel : Nat) (src buf : List Nat)
      (cs lineno count base reads calls maxB : Nat) (bt : Bool) (st : GrepState),
      (outerLoop cfg limit m rf cap fuel src buf cs lineno count base reads calls
        maxB bt st).evs = [] := by
  intro fuel
  induction fuel with
  | zero =>
    intro src buf cs lineno count base reads calls maxB bt st
    simp [outerLoop]
  | succ fuel ih =>
    intro src buf cs lineno count base reads calls maxB bt st
    simp only [outerLoop]
    set n := rf (cap - buf.length) src.length with hn
    set buf1 := buf ++ src.take n with hbuf1
    set endPos := scanEnd buf1 cfg.postContext (n == cap - buf.length) with hend
    set maxB1 := max maxB buf1.length with hmb1
    set r := innerLoop cfg limit m buf1 endPos (!(n == cap - buf.length)) base
      (reads + 1) maxB1 (endPos + 1) cs lineno bt count st calls with hr
    have hre : r.evs = [] := by
      rw [hr]
      exact innerLoop_flagL_evs cfg limit m buf1 endPos _ base (reads + 1) maxB1
        hfl _ _ _ _ _ _ _
    by_cases hab : r.aborted = true
    · rw [if_pos hab]
      exact hre
    · rw [if_neg hab]
      by_cases hpan : (needLineno cfg && (n == cap - buf.length) &&
          decide (endPos < r.cs)) = true
      · rw [if_pos hpan]
        exact hre
      · rw [if_neg hpan]
        by_cases hcont : ((n == cap - buf.length) && !(n == 0)) = true
        · rw [if_pos hcont]
          show r.evs ++ _ = []
          rw [hre, ih]
          rfl
        · rw [if_neg hcont]
          exact hre

end Sandd

namespace Sandd

/-- C2: a scan with positive limit `L` over a source with more than `L`
matches emits exactly the first `L` matches, sets the `limited` flag and
the counter to `L`, and aborts the scan the moment the ceiling check
`limit > 0 && Matches >= limit` fires on the (L+1)-st match: the run
performs no reads and no matcher calls beyond the point at which the
unlimited run reports that (L+1)-st match (no panic is reached either). -/
theorem c2_limit (cfg : GrepCfg) (m : Matcher) (grain : Nat)
    (content : List Nat) (L : Nat) (hL : 0 < L)
    (hmany : L <
      ((Grep.mk cfg 0 freshGrepState).Reader m grain content).2.evs.length) :
    ((Grep.mk cfg L freshGrepState).Reader m grain content).2.evs =
      ((Grep.mk cfg 0 freshGrepState).Reader m grain content).2.evs.take L ∧
    ((Grep.mk cfg L freshGrepState).Reader m grain content).2.evs.length = L ∧
    ((Grep.mk cfg L freshGrepState).Reader m grain content).1.st.limited =
      true ∧
    ((Grep.mk cfg L freshGrepState).Reader m grain content).1.st.nMatches = L ∧
    ((Grep.mk cfg L freshGrepState).Reader m grain content).2.panicked =
      false ∧
    (∃ ev, ((Grep.mk cfg 0 freshGrepState).Reader m grain
        content).2.evs[L]? = some ev ∧
      ((Grep.mk cfg L freshGrepState).Reader m grain content).2.reads =
        ev.readsAt ∧
      ((Grep.mk cfg L freshGrepState).Reader m grain content).2.calls =
        ev.callsAt) := by
  by_cases hfl : cfg.flagL = true
  · exfalso
    have h0 := outerLoop_flagL_evs cfg 0 m (readFullG grain) bufCap hfl
      (content.length + 1) content [] 0 1 0 0 0 0 0 true freshGrepState
    simp only [Grep.Reader] at hmany
    rw [h0] at hmany
    simp at hmany
  · have hfl' : cfg.flagL = false := by
      cases hflc : cfg.flagL
      · rfl
      · exact absurd hflc hfl
    obtain ⟨_, hB⟩ := outerLoop_limit_sim cfg L m (readFullG grain) bufCap hL
      hfl' (content.length + 1) content [] 0 1 0 0 0 0 0 true freshGrepState
    simp only [Grep.Reader] at hmany ⊢
    have hz : L - freshGrepState.nMatches = L := rfl
    rw [hz] at hB
    obtain ⟨hevs, hst, _, hpk, ev, hev, hc, hr, _⟩ := hB hmany
    refine ⟨hevs, ?_, ?_, ?_, hpk, ev, hev, hr, hc⟩
    · rw [hevs, List.length_take]
      omega
    · rw [hst]
    · rw [hst]
      simp [freshGrepState]

end Sandd

namespace Sandd

theorem c2_limit_witness :
    (0 < 2 ∧ 2 <
      ((Grep.mk ⟨0, 0, false, false, false, false⟩ 0 freshGrepState).Reader
        (lineMatcher 97) 10
        [97, 10, 97, 10, 97, 10, 97, 10, 97, 10]).2.evs.length) ∧
    (((Grep.mk ⟨0, 0, false, false, false, false⟩ 2 freshGrepState).Reader
        (lineMatcher 97) 10 [97, 10, 97, 10, 97, 10, 97, 10, 97, 10]).2.evs =
      ((Grep.mk ⟨0, 0, false, false, false, false⟩ 0 freshGrepState).Reader
        (lineMatcher 97) 10
        [97, 10, 97, 10, 97, 10, 97, 10, 97, 10]).2.evs.take 2 ∧
    ((Grep.mk ⟨0, 0, false, false, false, false⟩ 2 freshGrepState).Reader
        (lineMatcher 97) 10
        [97, 10, 97, 10, 97, 10, 97, 10, 97, 10]).2.evs.length = 2 ∧
    ((Grep.mk ⟨0, 0, false, false, false, false⟩ 2 freshGrepState).Reader
        (lineMatcher 97) 10
        [97, 10, 97, 10, 97, 10, 97, 10, 97, 10]).1.st.limited = true ∧
    ((Grep.mk ⟨0, 0, false, false, false, false⟩ 2 freshGrepState).Reader
        (lineMatcher 97) 10
        [97, 10, 97, 10, 97, 10, 97, 10, 97, 10]).1.st.nMatches = 2 ∧
    ((Grep.mk ⟨0, 0, false, false, false, false⟩ 2 freshGrepState).Reader
        (lineMatcher 97) 10
        [97, 10, 97, 10, 97, 10, 97, 10, 97, 10]).2.panicked = false ∧
    (∃ ev, ((Grep.mk ⟨0, 0, false, false, false, false⟩ 0
          freshGrepState).Reader (lineMatcher 97) 10
          [97, 10, 97, 10, 97, 10, 97, 10, 97, 10]).2.evs[2]? = some ev ∧
      ((Grep.mk ⟨0, 0, false, false, false, false⟩ 2 freshGrepState).Reader
          (lineMatcher 97) 10
          [97, 10, 97, 10, 97, 10, 97, 10, 97, 10]).2.reads = ev.readsAt ∧
      ((Grep.mk ⟨0, 0, false, false, false, false⟩ 2 freshGrepState).Reader
          (lineMatcher 97) 10
          [97, 10, 97, 10, 97, 10, 97, 10, 97, 10]).2.calls = ev.callsAt)) :=
  ⟨⟨by decide, by decide⟩,
    c2_limit ⟨0, 0, false, false, false, false⟩ (lineMatcher 97) 10
      [97, 10, 97, 10, 97, 10, 97, 10, 97, 10] 2 (by decide) (by decide)⟩

end Sandd

namespace Sandd

theorem lastNLIdx_append_nonl (xs ys : List Nat) (h : countNL ys = 0) :
    lastNLIdx (xs ++ ys) = lastNLIdx xs := by
  induction xs with
  | nil => simpa using (lastNLIdx_eq_none ys).mpr h
  | cons c xs ih =>
    cases hx : lastNLIdx xs with
    | none => simp only [List.cons_append, lastNLIdx, List.append_eq, ih, hx]
    | some j => simp only [List.cons_append, lastNLIdx, List.append_eq, ih, hx]

theorem lineScan_no_nl (b : Nat) (l : List Nat) (h : (10 : Nat) ∉ l) :
    ∀ s, lineScan b false l s = none := by
  induction l with
  | nil => intro s; simp [lineScan]
  | cons c rest ih =>
    intro s
    have hc : ¬ c = 10 := by
      intro he
      subst he
      exact h (List.mem_cons_self _ _)
    simp only [lineScan, if_neg hc]
    rw [ih (fun hm => h (List.mem_cons_of_mem c hm))]
    rfl

theorem lslEnd_one (buf : List Nat) (j : Nat) (h : lastNLIdx buf = some j) :
    lslEnd buf 1 buf.length = j := by
  show (match lastNLIdx (buf.take buf.length) with
    | none => buf.length
    | some j => lslEnd buf 0 j) = j
  rw [List.take_length, h]
  rfl

theorem lineSuffixLen_eq_of_none (buf : List Nat) (n : Nat)
    (h : lastNLIdx (buf.take (lslEnd buf n buf.length)) = none) :
    lineSuffixLen buf n = buf.length := by
  unfold lineSuffixLen
  rw [h]

theorem inner_c4_step2 (A : List Nat) (E mB f c : Nat) (st : GrepState)
    (h2 : 2 < E)
    (hm2 : lineMatcher 97 ((A.take E).drop 2) false false = none) :
    innerLoop ⟨0, 0, false, false, false, false⟩ 0 (lineMatcher 97) A E false 0 1
      mB (f + 1) 2 1 false 0 st c =
    ⟨[], st, 0, c + 1, false, 2, 1, false⟩ := by
  simp only [innerLoop, if_pos h2, hm2]

theorem inner_c4_run (A : List Nat) (E f : Nat) (hpos : 0 < E) (h2 : 2 < E)
    (hf : 0 < f)
    (hm1 : lineMatcher 97 (A.take E) true false = some 1)
    (hl1 : lastNLIdx (A.take 1) = none)
    (hm2 : lineMatcher 97 ((A.take E).drop 2) false false = none) :
    innerLoop ⟨0, 0, false, false, false, false⟩ 0 (lineMatcher 97) A E false 0 1
      E (f + 1) 0 1 true 0 freshGrepState 0 =
    ⟨[⟨A, 1, 0, 2, 0, 0, 1, E, false, 1, 1, E⟩],
      ⟨true, 1, false⟩, 0, 2, false, 2, 1, false⟩ := by
  have hmin : (0 + 1 + 1 : Nat) ⊓ E = 2 := by rw [Nat.min_eq_left (by omega)]
  simp only [innerLoop, if_pos hpos, hm1, freshGrepState,
    if_neg (show ¬ (0 < 0 ∧ 0 ≤ (0 : Nat)) by omega),
    if_neg (show ¬ (false = true) by decide),
    if_neg (show ¬ (needLineno ⟨0, 0, false, false, false, false⟩ = true)
      by decide),
    List.drop_zero, hl1, Nat.zero_add, Nat.add_zero, hmin]
  rw [show f = f - 1 + 1 from by omega]
  rw [inner_c4_step2 A E E (f - 1) 1 ⟨true, 1, false⟩ h2 hm2]

end Sandd

namespace Sandd

theorem c4_run_abstract (A : List Nat)
    (hAl : A.length = bufCap)
    (hlast : lastNLIdx A = some 1)
    (htake1 : A.take 1 = [97])
    (hm1' : lineMatcher 97 A true false = some 1)
    (hm2' : lineMatcher 97 (A.drop 2) false false = none) :
    ∃ e ∈ (Grep.Reader ⟨⟨0, 0, false, false, false, false⟩, 0, freshGrepState⟩
        (lineMatcher 97) (bufCap + 1) (A ++ [99])).2.evs,
      e.final = false ∧
      e.endAt = e.buf.length ∧
      lineSuffixLen e.buf (0 + 1) = e.buf.length ∧
      ¬ e.m1 < e.buf.length - lineSuffixLen e.buf (0 + 1) := by
  have hbc : bufCap = 1048576 := rfl
  have h1 : lslEnd A 1 A.length = 1 := lslEnd_one A 1 hlast
  have hsfx : lineSuffixLen A 1 = A.length := by
    refine lineSuffixLen_eq_of_none A 1 ?_
    rw [h1, htake1]
    rfl
  have hscan : scanEnd A 0 true = A.length := by
    unfold scanEnd
    rw [hsfx]
    simp
  have hin : innerLoop ⟨0, 0, false, false, false, false⟩ 0 (lineMatcher 97) A
      A.length false 0 1 A.length (A.length + 1) 0 1 true 0 freshGrepState 0 =
      ⟨[⟨A, 1, 0, 2, 0, 0, 1, A.length, false, 1, 1, A.length⟩],
        ⟨true, 1, false⟩, 0, 2, false, 2, 1, false⟩ :=
    inner_c4_run A A.length A.length (by omega) (by omega) (by omega)
      (by rw [List.take_length]; exact hm1')
      (by rw [htake1]; rfl)
      (by rw [List.take_length]; exact hm2')
  have hlen99 : (A ++ [99]).length = bufCap + 1 := by
    rw [List.length_append, hAl]
    rfl
  have hn : readFullG (bufCap + 1) bufCap (A ++ [99]).length = bufCap := by
    simp only [readFullG_min (bufCap + 1) (by omega : 1 ≤ bufCap + 1)]
    rw [hlen99]
    exact Nat.min_eq_left (by omega)
  have htk : (A ++ [99]).take bufCap = A := by
    rw [← hAl]
    exact List.take_left _ _
  have hbeq : (bufCap == bufCap) = true := by simp
  have hn0 : (bufCap == 0) = false := by decide
  have hevs : ∃ tail, ((Grep.mk ⟨0, 0, false, false, false, false⟩ 0
      freshGrepState).Reader (lineMatcher 97) (bufCap + 1) (A ++ [99])).2.evs =
      (⟨A, 1, 0, 2, 0, 0, 1, A.length, false, 1, 1, A.length⟩ : Ev) :: tail := by
    simp only [Grep.Reader, outerLoop, List.length_nil, Nat.sub_zero, hn,
      List.nil_append, htk, hbeq, hn0, Bool.not_true, Bool.not_false,
      Nat.zero_max, Nat.zero_add, hscan, hin, needLineno,
      Bool.false_and, Bool.and_self, Bool.true_and, Bool.and_true,
      Bool.false_eq_true, Bool.or_self, Bool.false_or, Bool.or_false,
      eq_self_iff_true, if_false, if_true]
    exact ⟨_, List.singleton_append⟩
  obtain ⟨tail, htail⟩ := hevs
  refine ⟨⟨A, 1, 0, 2, 0, 0, 1, A.length, false, 1, 1, A.length⟩, ?_, rfl, rfl,
    ?_, ?_⟩
  · rw [htail]
    exact List.mem_cons_self _ _
  · exact hsfx
  · have h01 : lineSuffixLen A (0 + 1) = A.length := hsfx
    rw [h01, Nat.sub_self]
    omega

end Sandd

namespace Sandd

/-- C4 is refuted at the `if d < len(buf)` corner (match.go line 97): on the
first, non-final pass over a stream of `1<<20 + 1` bytes whose buffer holds
one complete line followed by a newline-free fragment filling the rest, the
trailing `PostContext + 1 = 1` complete lines plus the fragment are the
whole buffer, so the claimed safe end `len(buf) - lineSuffixLen(buf, 1)` is
`0`; the scan nevertheless searches the whole buffer and reports a match at
`m1 = 1 ≥ 0`, at/past the claimed safe end of this non-final chunk. -/
theorem c4_counterexample :
    LineMatcherOK (lineMatcher 97) ∧
    ∃ e ∈ (Grep.Reader ⟨⟨0, 0, false, false, false, false⟩, 0, freshGrepState⟩
        (lineMatcher 97) (bufCap + 1)
        (([97, 10] ++ List.replicate (bufCap - 2) 98) ++ [99])).2.evs,
      e.final = false ∧
      e.endAt = e.buf.length ∧
      lineSuffixLen e.buf (0 + 1) = e.buf.length ∧
      ¬ e.m1 < e.buf.length - lineSuffixLen e.buf (0 + 1) :=
  ⟨lineMatcher_ok 97,
  c4_run_abstract ([97, 10] ++ List.replicate (bufCap - 2) 98)
    (by rw [List.length_append, List.length_replicate]; decide)
    (by
      rw [lastNLIdx_append_nonl _ _ (by simp [countNL, List.count_replicate])]
      decide)
    rfl
    (by
      show lineScan 97 false (97 :: 10 :: List.replicate (bufCap - 2) 98)
        false = some 1
      simp [lineScan])
    (by
      show lineMatcher 97 (List.replicate (bufCap - 2) 98) false false = none
      exact lineScan_no_nl 97 _ (by simp [List.mem_replicate]) false)⟩

end Sandd

namespace Sandd

theorem lineScan_no_b (b : Nat) (hb : b ≠ 10) (l : List Nat) (h : b ∉ l) :
    lineScan b false l false = none := by
  induction l with
  | nil => simp [lineScan]
  | cons c rest ih =>
    have hcb : (c == b) = false := by
      simp only [beq_eq_false_iff_ne, ne_eq]
      intro he
      exact h (he ▸ List.mem_cons_self c rest)
    by_cases hc : c = 10
    · simp only [lineScan, if_pos hc, Bool.false_or]
      rw [ih (fun hm => h (List.mem_cons_of_mem c hm))]
      rfl
    · simp only [lineScan, if_neg hc, Bool.false_or, hcb]
      rw [ih (fun hm => h (List.mem_cons_of_mem c hm))]
      rfl

theorem lslEnd_succ (buf : List Nat) (n e j : Nat)
    (h : lastNLIdx (buf.take e) = some j) :
    lslEnd buf (n + 1) e = lslEnd buf n j := by
  show (match lastNLIdx (buf.take e) with
    | none => e
    | some j => lslEnd buf n j) = lslEnd buf n j
  rw [h]

theorem scanEnd_errFalse (buf : List Nat) (n : Nat) :
    scanEnd buf n false = buf.length := rfl

theorem innerLoop_stop (cfg : GrepCfg) (limit : Nat) (m : Matcher)
    (buf : List Nat) (E : Nat) (et : Bool) (base rc mB : Nat) (fuel cs lineno : Nat)
    (bt : Bool) (count : Nat) (st : GrepState) (calls : Nat) (h : ¬ cs < E) :
    innerLoop cfg limit m buf E et base rc mB fuel cs lineno bt count st calls =
    ⟨[], st, count, calls, false, cs, lineno, bt⟩ := by
  cases fuel with
  | zero => simp [innerLoop]
  | succ f => simp [innerLoop, if_neg h]

theorem innerLoop_none_step (cfg : GrepCfg) (limit : Nat) (m : Matcher)
    (buf : List Nat) (E : Nat) (et : Bool) (base rc mB : Nat) (f cs lineno : Nat)
    (bt : Bool) (count : Nat) (st : GrepState) (calls : Nat) (hcs : cs < E)
    (hm : m ((buf.take E).drop cs) bt et = none) :
    innerLoop cfg limit m buf E et base rc mB (f + 1) cs lineno bt count st
      calls = ⟨[], st, count, calls + 1, false, cs, lineno, false⟩ := by
  simp only [innerLoop, if_pos hcs, hm]

end Sandd

namespace Sandd

theorem inner_c7_step (D : List Nat) (E c : Nat) (b r M f l k a : Nat)
    (s : GrepState) (hc : c < E) (hEc : E = c + 1)
    (hm : lineMatcher 68 ((D.take E).drop c) false true = some 1)
    (hls : lastNLIdx ((D.take (c + 1)).drop c) = none) :
    innerLoop ⟨1, 1, false, false, false, false⟩ 0 (lineMatcher 68) D E true b r
      M (f + 1) c l false k s a =
    ⟨[⟨D, l, c, E, b, c, c + 1, E, true, r, a + 1, M⟩],
      ⟨true, s.nMatches + 1, s.limited⟩, k, a + 1, false, E, l, false⟩ := by
  have hmin : (c + 1 + 1 : Nat) ⊓ E = E := by
    rw [hEc, Nat.min_eq_right (by omega)]
  simp only [innerLoop, if_pos hc, hm,
    if_neg (show ¬ (0 < 0 ∧ 0 ≤ s.nMatches) by omega),
    if_neg (show ¬ (false = true) by decide),
    if_neg (show ¬ (needLineno ⟨1, 1, false, false, false, false⟩ = true)
      by decide),
    hls, Nat.zero_add, Nat.add_zero, hmin]
  rw [innerLoop_stop _ 0 (lineMatcher 68) D E true b r M f E l false k
    ⟨true, s.nMatches + 1, s.limited⟩ (a + 1) (lt_irrefl E)]

end Sandd

namespace Sandd

theorem outer_c7_chunk2 (B : List Nat) (g c b r M k l a : Nat) (s : GrepState)
    (hreq : bufCap - B.length = 2)
    (hc : c < (B ++ [68]).length)
    (hEc : (B ++ [68]).length = c + 1)
    (hm : lineMatcher 68 (((B ++ [68]).take ((B ++ [68]).length)).drop c) false
      true = some 1)
    (hls : lastNLIdx (((B ++ [68]).take (c + 1)).drop c) = none) :
    outerLoop ⟨1, 1, false, false, false, false⟩ 0 (lineMatcher 68)
      (readFullG (bufCap + 1)) bufCap (g + 1) [68] B c l k b r a M false s =
    ⟨[⟨B ++ [68], l, c, (B ++ [68]).length, b, c, c + 1, (B ++ [68]).length,
        true, r + 1, a + 1, max M (B ++ [68]).length⟩],
      ⟨true, s.nMatches + 1, s.limited⟩, k, r + 1, a + 1,
      max M (B ++ [68]).length, false⟩ := by
  have hlen68 : ([68] : List Nat).length = 1 := rfl
  have hn2 : readFullG (bufCap + 1) 2 1 = 1 := by
    simp only [readFullG_min (bufCap + 1) (by omega : 1 ≤ bufCap + 1)]
    decide
  have h68tk : ([68] : List Nat).take 1 = [68] := rfl
  have hbe : ((1 : Nat) == 2) = false := rfl
  have h10f : ((1 : Nat) == 0) = false := rfl
  have hin2 := inner_c7_step (B ++ [68]) ((B ++ [68]).length) c b (r + 1)
    (max M (B ++ [68]).length) ((B ++ [68]).length) l k a s hc hEc hm hls
  simp only [outerLoop, hreq, hlen68, hn2, h68tk, hbe, h10f,
    scanEnd_errFalse, Bool.not_false, Bool.not_true, Bool.false_and,
    Bool.and_false, Bool.and_self, Bool.true_and, Bool.and_true, hin2,
    if_neg (show ¬ (false = true) by decide),
    if_neg (show ¬ (needLineno ⟨1, 1, false, false, false, false⟩ = true)
      by decide)]

end Sandd

namespace Sandd

theorem c7_run_abstract (A1 B : List Nat)
    (hA1len : A1.length = bufCap)
    (hlast : lastNLIdx A1 = some 3)
    (htk3 : A1.take 3 = [65, 10, 66])
    (hls1 : lastNLIdx (A1.take 1) = none)
    (hm1n : lineMatcher 68 A1 true false = none)
    (hdropA12 : A1.drop 2 = B)
    (hBlen : B.length = bufCap - 2)
    (hm68 : lineMatcher 68 ((B ++ [68]).drop (bufCap - 2)) false true = some 1)
    (hls2 : lastNLIdx (((B ++ [68]).take (bufCap - 2 + 1)).drop (bufCap - 2)) =
      none)
    (hb1 : (B ++ [68])[1]? = some 10)
    (hbne : ¬ (B ++ [68])[bufCap - 2 - 1]? = some 10) :
    ∃ e ∈ (Grep.Reader ⟨⟨1, 1, false, false, false, false⟩, 0, freshGrepState⟩
        (lineMatcher 68) (bufCap + 1) (A1 ++ [68])).2.evs,
      e.lineStart = e.csAt ∧
      e.lineStart ≠ 0 ∧
      ¬ e.buf[e.lineStart - 1]? = some 10 ∧
      e.buf[1]? = some 10 ∧
      1 < e.lineStart := by
  have hclen : (A1 ++ [68]).length = bufCap + 1 := by
    rw [List.length_append, hA1len]
    rfl
  have hn1 : readFullG (bufCap + 1) bufCap ((A1 ++ [68]).length) = bufCap := by
    simp only [readFullG_min (bufCap + 1) (by omega : 1 ≤ bufCap + 1)]
    rw [hclen]
    exact Nat.min_eq_left (by omega)
  have htk1 : (A1 ++ [68]).take bufCap = A1 := by
    rw [← hA1len]
    exact List.take_left _ _
  have hsrc2 : (A1 ++ [68]).drop bufCap = [68] := by
    rw [← hA1len]
    exact List.drop_left _ _
  have hbeq : (bufCap == bufCap) = true := by simp
  have hn0 : (bufCap == 0) = false := by decide
  have hl3 : lastNLIdx [65, 10, 66] = some 1 := rfl
  have hsfx2 : lineSuffixLen A1 2 = A1.length := by
    refine lineSuffixLen_eq_of_none _ 2 ?_
    rw [lslEnd_succ _ 1 _ 3 (by rw [List.take_length]; exact hlast),
      lslEnd_succ _ 0 _ 1 (by rw [htk3]; exact hl3)]
    exact hls1
  have hscan1 : scanEnd A1 1 true = A1.length := by
    unfold scanEnd
    rw [hsfx2]
    simp
  have htkA1cap : A1.take bufCap = A1 := by
    rw [← hA1len]
    exact List.take_length _
  have hpos : 0 < bufCap := by decide
  have hinn1 : innerLoop ⟨1, 1, false, false, false, false⟩ 0 (lineMatcher 68)
      A1 bufCap false 0 1 bufCap (bufCap + 1) 0 1 true 0 freshGrepState 0 =
      ⟨[], freshGrepState, 0, 0 + 1, false, 0, 1, false⟩ :=
    innerLoop_none_step _ 0 (lineMatcher 68) A1 bufCap false 0 1 bufCap bufCap
      0 1 true 0 freshGrepState 0 hpos
      (by rw [htkA1cap, List.drop_zero]; exact hm1n)
  have hsfx1 : lineSuffixLen A1 1 = bufCap - 2 := by
    unfold lineSuffixLen
    rw [lslEnd_one _ 3 hlast, htk3, hl3]
    rw [hA1len]
  have hslide : slideAmt A1 bufCap 1 = bufCap - 2 := by
    unfold slideAmt
    rw [htkA1cap, hsfx1]
    show (if bufCap - 2 = bufCap then 0 else bufCap - 2) = bufCap - 2
    rw [if_neg (by decide : ¬ (bufCap - 2 = bufCap))]
  have harr2 : bufCap - (bufCap - 2) = 2 := by decide
  have hreq2 : bufCap - B.length = 2 := by
    rw [hBlen]
    decide
  have hc2 : bufCap - 2 < (B ++ [68]).length := by
    rw [List.length_append, hBlen]
    decide
  have hEc2 : (B ++ [68]).length = bufCap - 2 + 1 := by
    rw [List.length_append, hBlen]
    decide
  have hm2' : lineMatcher 68
      (((B ++ [68]).take ((B ++ [68]).length)).drop (bufCap - 2)) false true =
      some 1 := by
    rw [List.take_length]
    exact hm68
  simp only [Grep.Reader, outerLoop, List.length_nil, Nat.sub_zero, hn1,
    List.nil_append, htk1, hsrc2, hbeq, hn0, Bool.not_true, Bool.not_false,
    Bool.false_and, Bool.and_false, Bool.and_self, Bool.true_and,
    Bool.and_true, Bool.false_eq_true, eq_self_iff_true, if_false, if_true,
    Nat.zero_max, Nat.zero_add, hA1len, hscan1, hinn1, hslide, harr2,
    hdropA12, needLineno, Bool.or_self]
  rw [hclen]
  rw [outer_c7_chunk2 B bufCap (bufCap - 2) 2 1 bufCap 0 1 1 freshGrepState
    hreq2 hc2 hEc2 hm2' hls2]
  exact ⟨_, List.mem_cons_self _ _, rfl,
    show bufCap - 2 ≠ 0 by decide, hbne, hb1,
    show 1 < bufCap - 2 by decide⟩

end Sandd

namespace Sandd

/-- C7 is refuted at the chunk boundary: with `PreContext = 1` the slide
preserves the trailing complete line plus the newline-free fragment of the
processed region, and the next pass's `chunkStart` points at the end of
that preserved region — in the middle of the (giant) fragment line's
successor. A match on the final line then computes `lineStart` by scanning
backward only to `chunkStart`: the reported `lineStart` equals `chunkStart`,
is not the buffer start, and the byte before it is not a newline, even
though a newline exists earlier in the buffer (at index 1), which is where
the claimed backward scan would stop. -/
theorem c7_counterexample :
    LineMatcherOK (lineMatcher 68) ∧
    ∃ e ∈ (Grep.Reader ⟨⟨1, 1, false, false, false, false⟩, 0, freshGrepState⟩
        (lineMatcher 68) (bufCap + 1)
        (([65, 10, 66, 10] ++ List.replicate (bufCap - 4) 67) ++ [68])).2.evs,
      e.lineStart = e.csAt ∧
      e.lineStart ≠ 0 ∧
      ¬ e.buf[e.lineStart - 1]? = some 10 ∧
      e.buf[1]? = some 10 ∧
      1 < e.lineStart := by
  have hblen : ([66, 10] ++ List.replicate (bufCap - 4) 67).length =
      bufCap - 2 := by
    rw [List.length_append, List.length_replicate]
    decide
  refine ⟨lineMatcher_ok 68, ?_⟩
  refine c7_run_abstract ([65, 10, 66, 10] ++ List.replicate (bufCap - 4) 67)
    ([66, 10] ++ List.replicate (bufCap - 4) 67) ?_ ?_ rfl rfl ?_ rfl hblen
    ?_ ?_ ?_ ?_
  · rw [List.length_append, List.length_replicate]
    decide
  · rw [lastNLIdx_append_nonl _ _ (by simp [countNL, List.count_replicate])]
    decide
  · refine lineScan_no_b 68 (by decide) _ ?_
    intro h
    rcases List.mem_append.mp h with h | h
    · exact absurd h (by decide)
    · rw [List.mem_replicate] at h
      omega
  · rw [show bufCap - 2 =
      ([66, 10] ++ List.replicate (bufCap - 4) 67).length from hblen.symm,
      List.drop_left]
    rfl
  · rw [show bufCap - 2 + 1 =
      (([66, 10] ++ List.replicate (bufCap - 4) 67) ++ [68]).length from by
        rw [List.length_append, hblen]; decide,
      List.take_length,
      show bufCap - 2 =
        ([66, 10] ++ List.replicate (bufCap - 4) 67).length from hblen.symm,
      List.drop_left]
    rfl
  · rw [List.getElem?_append, if_pos (by rw [hblen]; decide),
      List.getElem?_append,
      if_pos (by decide : 1 < ([66, 10] : List Nat).length)]
    rfl
  · intro h
    rw [List.getElem?_append, if_pos (by rw [hblen]; decide),
      List.getElem?_append,
      if_neg (by decide : ¬ (bufCap - 2 - 1 < ([66, 10] : List Nat).length))]
      at h
    have hmem := List.getElem?_mem h
    rw [List.mem_replicate] at hmem
    omega

end Sandd
